/-
  Verification of the LFU cache (package `lfu`, backed by `internal/linkedlist`).

  Shallow embedding of the final variant of `lfu.go` (`сacheImpl` with
  `pushToFrequency`, and `evictLFU` that panics on an empty structure).

  Representation notes.  The Go implementation keeps three mutable pieces:
  a doubly linked list of frequency buckets (`l.cache`, ascending frequency,
  head = lowest), a map `l.frequencies : freq → bucket node`, and a map
  `l.items : key → entry node`.  Every bucket node created is registered in
  `l.frequencies` under exactly one frequency value at the moment it is
  linked into `l.cache`, and removed from both together, so the bucket list
  and the frequency map are represented here by a single association list
  `buckets : List (Nat × List (cacheElement K V))` in bucket-list order:
  the `Nat` of a pair is the frequency-map key under which the bucket is
  registered, and the bucket itself is the list of entries in list order
  (head = least recently used, tail = most recently used; the Go
  `PushBack` appends at the tail).  The `items` map is represented by
  key search over the entries (under the cache invariants the map's
  content is exactly the set of stored entries, keyed by `key`).

  Go panics (`evictLFU` on an empty structure, `PushAfter` on a nil anchor,
  a nil-map-hit dereference in `incrementFrequency`, negative capacity in
  `New`) are modelled by `Option`: `none` is a panic.  The expected
  `ErrKeyNotFound` result of `Get`/`GetKeyFrequency` is the *inner*
  `Option` of their results.

  Recency ("least recently touched by Get or Put") is not a field of the
  Go state; it is modelled by a ghost map `touch : K → Nat` and a ghost
  clock, updated alongside the real operations in `stepG`.
-/
import Mathlib

namespace LfuSpec

/-- Entries stored in the cache: mirrors Go `cacheElement[K, V]`
with fields `key`, `value`, `freq`. -/
structure cacheElement (K V : Type) where
  key : K
  value : V
  freq : Nat
deriving DecidableEq, Repr

/-- The cache state: mirrors Go `сacheImpl[K, V]`.  `buckets` fuses the
bucket list `l.cache` with the registration map `l.frequencies` (see the
header comment); `items` is represented by key search over `buckets`. -/
structure CacheImpl (K V : Type) where
  capacity : Nat
  size : Nat
  buckets : List (Nat × List (cacheElement K V))
deriving DecidableEq, Repr

variable {K V : Type} [DecidableEq K] [DecidableEq V]

/-- Keys of a list of entries. -/
def keysOf (l : List (cacheElement K V)) : List K :=
  l.map (fun e => e.key)

/-- All entries of the bucket list, in bucket-list order, each bucket
head-to-tail.  This is the flattening of the two-level structure. -/
def entriesOf : List (Nat × List (cacheElement K V)) → List (cacheElement K V)
  | [] => []
  | (_, b) :: bs => b ++ entriesOf bs

/-- The frequency values registered in the fused bucket list: the domain
of the Go map `l.frequencies`. -/
def bucketKeys (bs : List (Nat × List (cacheElement K V))) : List Nat :=
  bs.map (fun p => p.1)

/-- Lookup of the Go map `l.frequencies[f]`: the bucket registered under
frequency `f` (first registration wins; registrations are unique in
well-formed states). -/
def findFreq : List (Nat × List (cacheElement K V)) → Nat →
    Option (List (cacheElement K V))
  | [], _ => none
  | (f, b) :: bs, g => if f = g then some b else findFreq bs g

/-- In-place mutation of the bucket registered under `g` (the image of
mutating the list object `l.frequencies[g].Value` through its node). -/
def replaceFreq : List (Nat × List (cacheElement K V)) → Nat →
    List (cacheElement K V) → List (Nat × List (cacheElement K V))
  | [], _, _ => []
  | (f, b) :: bs, g, nb =>
    if f = g then (f, nb) :: bs else (f, b) :: replaceFreq bs g nb

/-- Removal of the bucket registered under `g` from the bucket list
(the image of `l.cache.Pop(l.frequencies[g])` plus
`delete(l.frequencies, g)`, which the code always performs together). -/
def removeFreq : List (Nat × List (cacheElement K V)) → Nat →
    List (Nat × List (cacheElement K V))
  | [], _ => []
  | (f, b) :: bs, g => if f = g then bs else (f, b) :: removeFreq bs g

/-- Insertion of a fresh bucket pair right after the bucket registered
under `g` (the image of `l.cache.PushAfter(l.frequencies[g], node)`).
The caller has already checked that `g` is registered. -/
def insertAfterFreq : List (Nat × List (cacheElement K V)) → Nat →
    (Nat × List (cacheElement K V)) → List (Nat × List (cacheElement K V))
  | [], _, _ => []
  | (f, b) :: bs, g, nb =>
    if f = g then (f, b) :: nb :: bs else (f, b) :: insertAfterFreq bs g nb

/-- First entry with the given key in a flat entry list. -/
def findInList : List (cacheElement K V) → K → Option (cacheElement K V)
  | [], _ => none
  | e :: es, k => if e.key = k then some e else findInList es k

/-- The Go map lookup `l.items[key]`: the entry stored under `key`
(under the cache invariants the stored entries are exactly the range of
`l.items`, with pairwise distinct keys). -/
def findEntry (s : CacheImpl K V) (k : K) : Option (cacheElement K V) :=
  findInList (entriesOf s.buckets) k

/-- Removal of the (unique, in well-formed states) entry with the given
key from a bucket: the image of `frequencyList.Pop(elementNode)`, which
unlinks that node wherever it sits in the bucket. -/
def eraseKey : List (cacheElement K V) → K → List (cacheElement K V)
  | [], _ => []
  | e :: es, k => if e.key = k then es else e :: eraseKey es k

/-- Removal of every entry with the given key (used to state frame
properties: "all other entries, in order"). -/
def removeAllKey : List (cacheElement K V) → K → List (cacheElement K V)
  | [], _ => []
  | e :: es, k => if e.key = k then removeAllKey es k else e :: removeAllKey es k

/-- The in-place value overwrite `elementNode.Value.value = value`:
rewrites the value of the (first) entry with key `k`, wherever its node
sits in the two-level structure. -/
def setValueB : List (Nat × List (cacheElement K V)) → K → V →
    List (Nat × List (cacheElement K V))
  | [], _, _ => []
  | (f, b) :: bs, k, v =>
    if (findInList b k).isSome then (f, setValueList b k v) :: bs
    else (f, b) :: setValueB bs k v
where
  /-- Value overwrite inside one bucket. -/
  setValueList : List (cacheElement K V) → K → V → List (cacheElement K V)
    | [], _, _ => []
    | e :: es, k, v =>
      if e.key = k then { e with value := v } :: es else e :: setValueList es k v

/-- Go `pushToFrequency`: push `e` to the back of the bucket registered
under `frequency`, creating that bucket if absent — at the front of the
bucket list for frequency 1, otherwise right after the bucket registered
under `frequency - 1` (`PushAfter` panics, i.e. `none`, if that anchor
is not registered). -/
def pushToFrequency (s : CacheImpl K V) (frequency : Nat) (e : cacheElement K V) :
    Option (CacheImpl K V) :=
  match findFreq s.buckets frequency with
  | some b => some { s with buckets := replaceFreq s.buckets frequency (b ++ [e]) }
  | none =>
    if frequency = 1 then
      some { s with buckets := (1, [e]) :: s.buckets }
    else
      match findFreq s.buckets (frequency - 1) with
      | none => none
      | some _ =>
        some { s with buckets := insertAfterFreq s.buckets (frequency - 1) (frequency, [e]) }

/-- Go `addNewEntry`: create the entry with frequency 1, push it to the
frequency-1 bucket, record it, and increment `size`. -/
def addNewEntry (s : CacheImpl K V) (k : K) (v : V) : Option (CacheImpl K V) :=
  match pushToFrequency s 1 ⟨k, v, 1⟩ with
  | none => none
  | some s1 => some { s1 with size := s1.size + 1 }

/-- Go `incrementFrequency`, taking the current contents `e` of the
entry's node: look up the entry's bucket in the frequency map (a missing
registration is a nil dereference, `none`), pop the entry from it, bump
the frequency, push to the bucket of the new frequency, and destroy the
vacated bucket if it emptied. -/
def incrementFrequency (s : CacheImpl K V) (e : cacheElement K V) :
    Option (CacheImpl K V) :=
  match findFreq s.buckets e.freq with
  | none => none
  | some b =>
    let b' := eraseKey b e.key
    let s1 : CacheImpl K V := { s with buckets := replaceFreq s.buckets e.freq b' }
    match pushToFrequency s1 (e.freq + 1) { e with freq := e.freq + 1 } with
    | none => none
    | some s2 =>
      if b'.length = 0 then
        some { s2 with buckets := removeFreq s2.buckets e.freq }
      else
        some s2

/-- Go `evictLFU`: the head bucket holds the lowest frequency in use and
its head entry is the least recently used there; panics (`none`) when the
bucket list, or the head bucket, is empty. -/
def evictLFU (s : CacheImpl K V) : Option (CacheImpl K V) :=
  match s.buckets with
  | [] => none
  | (f, b) :: rest =>
    match b with
    | [] => none
    | e :: b' =>
      let bs := if b'.isEmpty then rest else (f, b') :: rest
      some { s with buckets := bs, size := s.size - 1 }

/-- Go `Get`: `none` is a panic, `some (none, s)` is `ErrKeyNotFound`
with the state untouched, `some (some v, s')` is a hit. -/
def Get (s : CacheImpl K V) (k : K) : Option (Option V × CacheImpl K V) :=
  match findEntry s k with
  | none => some (none, s)
  | some e =>
    match incrementFrequency s e with
    | none => none
    | some s' => some (some e.value, s')

/-- Go `Put`: `none` is a panic. -/
def Put (s : CacheImpl K V) (k : K) (v : V) : Option (CacheImpl K V) :=
  if s.capacity = 0 then some s
  else
    match findEntry s k with
    | some e =>
      incrementFrequency { s with buckets := setValueB s.buckets k v }
        { e with value := v }
    | none =>
      match (if s.size = s.capacity then evictLFU s else some s) with
      | none => none
      | some s1 => addNewEntry s1 k v

/-- Entries in the order produced by `All`: bucket list from tail to head
(descending frequency), each bucket from tail to head (most recently used
first). -/
def allEntriesDesc : List (Nat × List (cacheElement K V)) → List (cacheElement K V)
  | [] => []
  | (_, b) :: bs => b.reverse ++ allEntriesDesc bs

/-- Go `All`: the yielded (key, value) pairs, in yield order. -/
def All (s : CacheImpl K V) : List (K × V) :=
  (allEntriesDesc s.buckets.reverse).map (fun e => (e.key, e.value))

/-- Go `Size`. -/
def Size (s : CacheImpl K V) : Nat := s.size

/-- Go `Capacity`. -/
def Capacity (s : CacheImpl K V) : Nat := s.capacity

/-- Go `GetKeyFrequency`: `none` is `ErrKeyNotFound`; no mutation. -/
def GetKeyFrequency (s : CacheImpl K V) (k : K) : Option Nat :=
  (findEntry s k).map (fun e => e.freq)

/-- Go `DefaultCapacity`. -/
def DefaultCapacity : Nat := 5

/-- Go `New`: the optional capacity argument is `Option Int`; a negative
capacity panics (`none`), a missing argument defaults to 5. -/
def New (K V : Type) (capArg : Option Int) : Option (CacheImpl K V) :=
  match capArg with
  | none => some ⟨DefaultCapacity, 0, []⟩
  | some c => if c < 0 then none else some ⟨c.toNat, 0, []⟩

/-! ### Ghost instrumentation for recency -/

/-- A public mutating operation. -/
inductive Op (K V : Type) where
  | get : K → Op K V
  | put : K → V → Op K V
deriving DecidableEq, Repr

/-- The key an operation targets. -/
def opKey : Op K V → K
  | .get k => k
  | .put k _ => k

/-- Pointwise update of a ghost map. -/
def upd (τ : K → Nat) (k : K) (n : Nat) : K → Nat :=
  fun k' => if k' = k then n else τ k'

/-- Cache state together with the ghost recency data: `touch k` is the
ghost time of the last `Get` hit or `Put` that targeted `k`, and `clock`
is the ghost time of the next operation. -/
structure GCache (K V : Type) where
  c : CacheImpl K V
  touch : K → Nat
  clock : Nat

/-- One public operation, with the ghost recency data maintained
alongside: a `Get` hit and any `Put` stamp the target key with the
current clock. -/
def stepG (g : GCache K V) (op : Op K V) : Option (GCache K V) :=
  match op with
  | .get k =>
    match Get g.c k with
    | none => none
    | some (r, c') =>
      match r with
      | none => some ⟨c', g.touch, g.clock + 1⟩
      | some _ => some ⟨c', upd g.touch k g.clock, g.clock + 1⟩
  | .put k v =>
    match Put g.c k v with
    | none => none
    | some c' => some ⟨c', upd g.touch k g.clock, g.clock + 1⟩

/-- Run a list of operations. -/
def runOps (g : GCache K V) : List (Op K V) → Option (GCache K V)
  | [] => some g
  | op :: ops =>
    match stepG g op with
    | none => none
    | some g' => runOps g' ops

/-- A freshly constructed cache of the given capacity, with trivial
ghost data.  Every result of `New` has this shape. -/
def init (K V : Type) (cap : Nat) : GCache K V :=
  ⟨⟨cap, 0, []⟩, fun _ => 0, 0⟩

/-- States reachable through the public API from a construction. -/
def Reachable (g : GCache K V) : Prop :=
  ∃ (cap : Nat) (ops : List (Op K V)), runOps (init K V cap) ops = some g

/-! ### The master invariant -/

/-- The well-formedness invariant of a cache state with its ghost recency
data.  `sorted` and the fused representation render: the frequency map
contains a value iff a bucket for it is linked, uniquely, and the bucket
list ascends strictly. -/
structure Inv (c : CacheImpl K V) (τ : K → Nat) (t : Nat) : Prop where
  sorted : List.Pairwise (· < ·) (bucketKeys c.buckets)
  nonemp : ∀ p ∈ c.buckets, p.2 ≠ []
  freqEq : ∀ p ∈ c.buckets, ∀ e ∈ p.2, e.freq = p.1
  onePos : ∀ p ∈ c.buckets, 1 ≤ p.1
  nodupKeys : (keysOf (entriesOf c.buckets)).Nodup
  sizeEq : c.size = (entriesOf c.buckets).length
  sizeLe : c.size ≤ c.capacity
  recency : ∀ p ∈ c.buckets, List.Pairwise (· < ·) (p.2.map (fun e => τ e.key))
  touchLt : ∀ e ∈ entriesOf c.buckets, τ e.key < t

/-! ### Basic lemmas about the list helpers -/

@[simp]
theorem entriesOf_nil : entriesOf ([] : List (Nat × List (cacheElement K V))) = [] := rfl

@[simp]
theorem entriesOf_cons (p : Nat × List (cacheElement K V)) (bs) :
    entriesOf (p :: bs) = p.2 ++ entriesOf bs := by
  cases p; rfl

@[simp]
theorem entriesOf_append (bs₁ bs₂ : List (Nat × List (cacheElement K V))) :
    entriesOf (bs₁ ++ bs₂) = entriesOf bs₁ ++ entriesOf bs₂ := by
  induction bs₁ with
  | nil => rfl
  | cons p bs ih => simp [ih]

@[simp]
theorem bucketKeys_nil : bucketKeys ([] : List (Nat × List (cacheElement K V))) = [] := rfl

@[simp]
theorem bucketKeys_cons (p : Nat × List (cacheElement K V)) (bs) :
    bucketKeys (p :: bs) = p.1 :: bucketKeys bs := rfl

@[simp]
theorem bucketKeys_append (bs₁ bs₂ : List (Nat × List (cacheElement K V))) :
    bucketKeys (bs₁ ++ bs₂) = bucketKeys bs₁ ++ bucketKeys bs₂ := by
  simp [bucketKeys]

@[simp]
theorem keysOf_nil : keysOf ([] : List (cacheElement K V)) = [] := rfl

@[simp]
theorem keysOf_cons (e : cacheElement K V) (l) :
    keysOf (e :: l) = e.key :: keysOf l := rfl

@[simp]
theorem keysOf_append (l₁ l₂ : List (cacheElement K V)) :
    keysOf (l₁ ++ l₂) = keysOf l₁ ++ keysOf l₂ := by
  simp [keysOf]

theorem mem_entriesOf {e : cacheElement K V} {bs} :
    e ∈ entriesOf bs ↔ ∃ p ∈ bs, e ∈ p.2 := by
  induction bs with
  | nil => simp
  | cons p bs ih => cases p with | mk f b => simp [ih]

theorem findFreq_eq_none {bs : List (Nat × List (cacheElement K V))} {g : Nat} :
    findFreq bs g = none ↔ g ∉ bucketKeys bs := by
  induction bs with
  | nil => simp [findFreq]
  | cons p bs ih =>
    cases p with | mk f b =>
    by_cases h : f = g
    · simp [findFreq, h, ih]
    · simp [findFreq, h, Ne.symm h, ih]

theorem findFreq_append_not_mem {bs₁ bs₂ : List (Nat × List (cacheElement K V))} {g : Nat}
    (h : g ∉ bucketKeys bs₁) : findFreq (bs₁ ++ bs₂) g = findFreq bs₂ g := by
  induction bs₁ with
  | nil => rfl
  | cons p bs ih =>
    cases p with | mk f b =>
    simp only [bucketKeys_cons, List.mem_cons] at h
    push_neg at h
    simp [findFreq, Ne.symm h.1, ih h.2]

@[simp]
theorem findFreq_cons_self {g : Nat} {b : List (cacheElement K V)} {bs} :
    findFreq ((g, b) :: bs) g = some b := by
  simp [findFreq]

theorem findFreq_some_decomp {bs : List (Nat × List (cacheElement K V))} {g : Nat}
    {b : List (cacheElement K V)} (h : findFreq bs g = some b) :
    ∃ bs₁ bs₂, bs = bs₁ ++ (g, b) :: bs₂ ∧ g ∉ bucketKeys bs₁ := by
  induction bs with
  | nil => simp [findFreq] at h
  | cons p bs ih =>
    cases p with | mk f b₀ =>
    by_cases hf : f = g
    · subst hf
      simp [findFreq] at h
      subst h
      exact ⟨[], bs, rfl, by simp⟩
    · simp [findFreq, hf] at h
      obtain ⟨bs₁, bs₂, rfl, hnm⟩ := ih h
      exact ⟨(f, b₀) :: bs₁, bs₂, rfl, by simp [hnm, Ne.symm hf]⟩

theorem replaceFreq_append_not_mem {bs₁ bs₂ : List (Nat × List (cacheElement K V))}
    {g : Nat} {nb} (h : g ∉ bucketKeys bs₁) :
    replaceFreq (bs₁ ++ bs₂) g nb = bs₁ ++ replaceFreq bs₂ g nb := by
  induction bs₁ with
  | nil => rfl
  | cons p bs ih =>
    cases p with | mk f b =>
    simp only [bucketKeys_cons, List.mem_cons] at h
    push_neg at h
    simp [replaceFreq, Ne.symm h.1, ih h.2]

@[simp]
theorem replaceFreq_cons_self {g : Nat} {b nb : List (cacheElement K V)} {bs} :
    replaceFreq ((g, b) :: bs) g nb = (g, nb) :: bs := by
  simp [replaceFreq]

theorem removeFreq_append_not_mem {bs₁ bs₂ : List (Nat × List (cacheElement K V))}
    {g : Nat} (h : g ∉ bucketKeys bs₁) :
    removeFreq (bs₁ ++ bs₂) g = bs₁ ++ removeFreq bs₂ g := by
  induction bs₁ with
  | nil => rfl
  | cons p bs ih =>
    cases p with | mk f b =>
    simp only [bucketKeys_cons, List.mem_cons] at h
    push_neg at h
    simp [removeFreq, Ne.symm h.1, ih h.2]

@[simp]
theorem removeFreq_cons_self {g : Nat} {b : List (cacheElement K V)} {bs} :
    removeFreq ((g, b) :: bs) g = bs := by
  simp [removeFreq]

theorem insertAfterFreq_append_not_mem {bs₁ bs₂ : List (Nat × List (cacheElement K V))}
    {g : Nat} {nb} (h : g ∉ bucketKeys bs₁) :
    insertAfterFreq (bs₁ ++ bs₂) g nb = bs₁ ++ insertAfterFreq bs₂ g nb := by
  induction bs₁ with
  | nil => rfl
  | cons p bs ih =>
    cases p with | mk f b =>
    simp only [bucketKeys_cons, List.mem_cons] at h
    push_neg at h
    simp [insertAfterFreq, Ne.symm h.1, ih h.2]

@[simp]
theorem insertAfterFreq_cons_self {g : Nat} {b : List (cacheElement K V)} {nb} {bs} :
    insertAfterFreq ((g, b) :: bs) g nb = (g, b) :: nb :: bs := by
  simp [insertAfterFreq]

theorem findInList_eq_none {l : List (cacheElement K V)} {k : K} :
    findInList l k = none ↔ k ∉ keysOf l := by
  induction l with
  | nil => simp [findInList]
  | cons e es ih =>
    by_cases h : e.key = k
    · simp [findInList, h, ih]
    · simp [findInList, h, Ne.symm h, ih]

theorem findInList_append_not_mem {l₁ l₂ : List (cacheElement K V)} {k : K}
    (h : k ∉ keysOf l₁) : findInList (l₁ ++ l₂) k = findInList l₂ k := by
  induction l₁ with
  | nil => rfl
  | cons e es ih =>
    simp only [keysOf_cons, List.mem_cons] at h
    push_neg at h
    simp [findInList, Ne.symm h.1, ih h.2]

theorem findInList_cons_self {e : cacheElement K V} {l} {k : K} (h : e.key = k) :
    findInList (e :: l) k = some e := by
  simp [findInList, h]

theorem findInList_some {l : List (cacheElement K V)} {k : K} {e}
    (h : findInList l k = some e) : e ∈ l ∧ e.key = k := by
  induction l with
  | nil => simp [findInList] at h
  | cons e₀ es ih =>
    by_cases h0 : e₀.key = k
    · simp [findInList, h0] at h
      subst h
      exact ⟨List.mem_cons_self _ _, h0⟩
    · simp [findInList, h0] at h
      obtain ⟨hm, hk⟩ := ih h
      exact ⟨List.mem_cons_of_mem _ hm, hk⟩

theorem findInList_some_decomp {l : List (cacheElement K V)} {k : K} {e}
    (h : findInList l k = some e) :
    ∃ l₁ l₂, l = l₁ ++ e :: l₂ ∧ k ∉ keysOf l₁ ∧ e.key = k := by
  induction l with
  | nil => simp [findInList] at h
  | cons e₀ es ih =>
    by_cases h0 : e₀.key = k
    · simp [findInList, h0] at h
      subst h
      exact ⟨[], es, rfl, by simp, h0⟩
    · simp [findInList, h0] at h
      obtain ⟨l₁, l₂, rfl, hnm, hk⟩ := ih h
      exact ⟨e₀ :: l₁, l₂, rfl, by simp [hnm, Ne.symm h0], hk⟩

theorem eraseKey_not_mem {l : List (cacheElement K V)} {k : K} (h : k ∉ keysOf l) :
    eraseKey l k = l := by
  induction l with
  | nil => rfl
  | cons e es ih =>
    simp only [keysOf_cons, List.mem_cons] at h
    push_neg at h
    simp [eraseKey, Ne.symm h.1, ih h.2]

theorem eraseKey_append_not_mem {l₁ l₂ : List (cacheElement K V)} {k : K}
    (h : k ∉ keysOf l₁) : eraseKey (l₁ ++ l₂) k = l₁ ++ eraseKey l₂ k := by
  induction l₁ with
  | nil => rfl
  | cons e es ih =>
    simp only [keysOf_cons, List.mem_cons] at h
    push_neg at h
    simp [eraseKey, Ne.symm h.1, ih h.2]

theorem eraseKey_cons_self {e : cacheElement K V} {l} {k : K} (h : e.key = k) :
    eraseKey (e :: l) k = l := by
  simp [eraseKey, h]

theorem removeAllKey_not_mem {l : List (cacheElement K V)} {k : K} (h : k ∉ keysOf l) :
    removeAllKey l k = l := by
  induction l with
  | nil => rfl
  | cons e es ih =>
    simp only [keysOf_cons, List.mem_cons] at h
    push_neg at h
    simp [removeAllKey, Ne.symm h.1, ih h.2]

@[simp]
theorem removeAllKey_append (l₁ l₂ : List (cacheElement K V)) (k : K) :
    removeAllKey (l₁ ++ l₂) k = removeAllKey l₁ k ++ removeAllKey l₂ k := by
  induction l₁ with
  | nil => rfl
  | cons e es ih =>
    by_cases h : e.key = k <;> simp [removeAllKey, h, ih]

theorem removeAllKey_cons_self {e : cacheElement K V} {l} {k : K} (h : e.key = k) :
    removeAllKey (e :: l) k = removeAllKey l k := by
  simp [removeAllKey, h]

theorem findInList_removeAllKey {l : List (cacheElement K V)} {k k' : K} (h : k' ≠ k) :
    findInList (removeAllKey l k) k' = findInList l k' := by
  induction l with
  | nil => rfl
  | cons e es ih =>
    by_cases hk : e.key = k
    · simp [removeAllKey, hk, findInList, Ne.symm h, ih]
    · by_cases hk' : e.key = k'
      · simp [removeAllKey, hk, findInList, hk', h, ih]
      · simp [removeAllKey, hk, findInList, hk', h, ih]

theorem setValueList_decomp {b₁ b₂ : List (cacheElement K V)} {e : cacheElement K V}
    {k : K} {v : V} (hk : e.key = k) (h₁ : k ∉ keysOf b₁) :
    setValueB.setValueList (b₁ ++ e :: b₂) k v = b₁ ++ { e with value := v } :: b₂ := by
  induction b₁ with
  | nil => simp [setValueB.setValueList, hk]
  | cons e₀ es ih =>
    simp only [keysOf_cons, List.mem_cons] at h₁
    push_neg at h₁
    simp [setValueB.setValueList, Ne.symm h₁.1, ih h₁.2]

theorem setValueB_decomp {bs₁ bs₂ : List (Nat × List (cacheElement K V))} {f : Nat}
    {b₁ b₂ : List (cacheElement K V)} {e : cacheElement K V} {k : K} {v : V}
    (hk : e.key = k) (hb₁ : k ∉ keysOf b₁) (hbs₁ : k ∉ keysOf (entriesOf bs₁)) :
    setValueB (bs₁ ++ (f, b₁ ++ e :: b₂) :: bs₂) k v
      = bs₁ ++ (f, b₁ ++ { e with value := v } :: b₂) :: bs₂ := by
  induction bs₁ with
  | nil =>
    have hfind : findInList (b₁ ++ e :: b₂) k = some e := by
      rw [findInList_append_not_mem hb₁, findInList_cons_self hk]
    simp [setValueB, hfind, setValueList_decomp hk hb₁]
  | cons p bs ih =>
    cases p with | mk f₀ b₀ =>
    simp only [entriesOf_cons, keysOf_append, List.mem_append] at hbs₁
    push_neg at hbs₁
    have h₀ : findInList b₀ k = none := findInList_eq_none.2 hbs₁.1
    simp [setValueB, h₀, ih hbs₁.2]

/-- Extract the four key-freshness facts for an entry occurring in the
middle of a flat key list with no duplicates. -/
theorem nodup_parts {E₁ b₁ b₂ E₂ : List K} {k : K}
    (h : (E₁ ++ (b₁ ++ k :: b₂) ++ E₂).Nodup) :
    k ∉ E₁ ∧ k ∉ b₁ ∧ k ∉ b₂ ∧ k ∉ E₂ := by
  simp only [List.nodup_append, List.nodup_cons, List.disjoint_left] at h
  obtain ⟨⟨-, ⟨-, ⟨hk2, -⟩, hd1⟩, hd2⟩, -, hd3⟩ := h
  refine ⟨fun hm => hd2 hm ?_, fun hm => hd1 hm ?_, hk2, fun hm => hd3 ?_ hm⟩
  · simp
  · simp
  · simp

/-- Split a strictly ascending key list around a distinguished element. -/
theorem sorted_parts {κ₁ κ₂ : List Nat} {f : Nat}
    (h : List.Pairwise (· < ·) (κ₁ ++ f :: κ₂)) :
    (∀ x ∈ κ₁, x < f) ∧ (∀ y ∈ κ₂, f < y) ∧
    List.Pairwise (· < ·) κ₁ ∧ List.Pairwise (· < ·) κ₂ := by
  rw [List.pairwise_append] at h
  obtain ⟨h₁, h₂, h₃⟩ := h
  rw [List.pairwise_cons] at h₂
  exact ⟨fun x hx => h₃ x hx f (by simp), h₂.1, h₁, h₂.2⟩

/-- Rebuild a strictly ascending key list around the slots `f`, `f + 1`. -/
theorem sorted_around {κ₁ κt mid : List Nat} {f : Nat}
    (h1 : ∀ x ∈ κ₁, x < f) (h2 : ∀ y ∈ κt, f + 1 < y)
    (hκ₁ : List.Pairwise (· < ·) κ₁) (hκt : List.Pairwise (· < ·) κt)
    (hmid : List.Pairwise (· < ·) mid)
    (hlo : ∀ x ∈ mid, f ≤ x) (hhi : ∀ x ∈ mid, x ≤ f + 1) :
    List.Pairwise (· < ·) (κ₁ ++ mid ++ κt) := by
  rw [List.append_assoc, List.pairwise_append]
  refine ⟨hκ₁, ?_, ?_⟩
  · rw [List.pairwise_append]
    refine ⟨hmid, hκt, fun a ha b hb => ?_⟩
    have := hhi a ha
    have := h2 b hb
    omega
  · intro a ha b hb
    have := h1 a ha
    rcases List.mem_append.1 hb with hb | hb
    · have := hlo b hb
      omega
    · have := h2 b hb
      omega

theorem Inv_mono_clock {c : CacheImpl K V} {τ : K → Nat} {t t' : Nat}
    (h : Inv c τ t) (ht : t ≤ t') : Inv c τ t' := by
  refine ⟨h.sorted, h.nonemp, h.freqEq, h.onePos, h.nodupKeys, h.sizeEq, h.sizeLe,
    h.recency, fun e he => ?_⟩
  have := h.touchLt e he
  omega

theorem Inv_empty {cap : Nat} {τ : K → Nat} {t : Nat} :
    Inv (⟨cap, 0, []⟩ : CacheImpl K V) τ t := by
  refine ⟨?_, ?_, ?_, ?_, ?_, ?_, ?_, ?_, ?_⟩ <;> simp [entriesOf, bucketKeys]

theorem Inv_buckets_nil {c : CacheImpl K V} {τ : K → Nat} {t : Nat}
    (h : Inv c τ t) (hz : c.size = 0) : c.buckets = [] := by
  have hlen : (entriesOf c.buckets).length = 0 := by
    have := h.sizeEq
    omega
  rw [List.length_eq_zero] at hlen
  cases hb : c.buckets with
  | nil => rfl
  | cons p bs =>
    exfalso
    have hne := h.nonemp p (by rw [hb]; simp)
    cases hp : p.2 with
    | nil => exact hne hp
    | cons e es =>
      have : e ∈ entriesOf c.buckets := by
        rw [hb, entriesOf_cons, hp]
        simp
      rw [hlen] at this
      simp at this

/-- Locate the bucket and position of a stored entry. -/
theorem findEntry_locate {s : CacheImpl K V} {τ : K → Nat} {t : Nat}
    (hInv : Inv s τ t) {k : K} {e : cacheElement K V}
    (h : findEntry s k = some e) :
    ∃ bs₁ b₁ b₂ bs₂, s.buckets = bs₁ ++ (e.freq, b₁ ++ e :: b₂) :: bs₂ ∧ e.key = k := by
  obtain ⟨hmem, hk⟩ := findInList_some h
  obtain ⟨p, hp, hep⟩ := mem_entriesOf.1 hmem
  obtain ⟨bs₁, bs₂, hbs⟩ := List.append_of_mem hp
  obtain ⟨b₁, b₂, hb⟩ := List.append_of_mem hep
  have hf : e.freq = p.1 := hInv.freqEq p hp e hep
  refine ⟨bs₁, b₁, b₂, bs₂, ?_, hk⟩
  rw [hbs, hf]
  congr 1
  rw [← hb]

theorem removeAllKey_sublist (l : List (cacheElement K V)) (k : K) :
    List.Sublist (removeAllKey l k) l := by
  induction l with
  | nil => simp [removeAllKey]
  | cons e es ih =>
    by_cases h : e.key = k
    · simp only [removeAllKey, if_pos h]
      exact ih.cons e
    · simp only [removeAllKey, if_neg h]
      exact ih.cons₂ e

theorem mem_removeAllKey {l : List (cacheElement K V)} {k : K} {e : cacheElement K V} :
    e ∈ removeAllKey l k ↔ e ∈ l ∧ e.key ≠ k := by
  induction l with
  | nil => simp [removeAllKey]
  | cons e₀ es ih =>
    by_cases h : e₀.key = k
    · rw [removeAllKey_cons_self h, ih]
      constructor
      · rintro ⟨hm, hk⟩
        exact ⟨List.mem_cons_of_mem _ hm, hk⟩
      · rintro ⟨hm, hk⟩
        rcases List.mem_cons.1 hm with rfl | hm
        · exact absurd h hk
        · exact ⟨hm, hk⟩
    · simp only [removeAllKey, if_neg h, List.mem_cons, ih]
      constructor
      · rintro (rfl | ⟨hm, hk⟩)
        · exact ⟨Or.inl rfl, h⟩
        · exact ⟨Or.inr hm, hk⟩
      · rintro ⟨rfl | hm, hk⟩
        · exact Or.inl rfl
        · exact Or.inr ⟨hm, hk⟩

theorem nodup_mid {P Q : List K} {k : K} (h : (P ++ k :: Q).Nodup) :
    k ∉ P ∧ k ∉ Q := by
  have h' : (([] : List K) ++ (P ++ k :: Q) ++ []).Nodup := by simpa using h
  obtain ⟨-, h₁, h₂, -⟩ := nodup_parts h'
  exact ⟨h₁, h₂⟩

/-- Any list with unique keys is a permutation of its unique `k`-entry
consed onto the other entries (in their original order). -/
theorem perm_removeAllKey_cons {l : List (cacheElement K V)} {k : K} {e : cacheElement K V}
    (h : findInList l k = some e) (hnd : (keysOf l).Nodup) :
    List.Perm l (e :: removeAllKey l k) := by
  obtain ⟨l₁, l₂, rfl, hnm, hk⟩ := findInList_some_decomp h
  have hnd' : (keysOf l₁ ++ k :: keysOf l₂).Nodup := by
    simpa [hk] using hnd
  obtain ⟨-, hk₂⟩ := nodup_mid hnd'
  rw [removeAllKey_append, removeAllKey_not_mem hnm, removeAllKey_cons_self hk,
    removeAllKey_not_mem hk₂]
  exact List.perm_middle

theorem map_touch_congr {b : List (cacheElement K V)} {τ τ' : K → Nat} {k : K}
    (hnk : k ∉ keysOf b) (hupd : ∀ k', k' ≠ k → τ' k' = τ k') :
    b.map (fun e => τ' e.key) = b.map (fun e => τ e.key) := by
  apply List.map_congr_left
  intro e he
  apply hupd
  intro hkey
  exact hnk (by rw [← hkey]; exact List.mem_map_of_mem _ he)

/-- Appending a freshly touched entry at the tail of a bucket keeps the
bucket's recency chain. -/
theorem recency_append {b : List (cacheElement K V)} {τ τ' : K → Nat} {k : K}
    {e1 : cacheElement K V} (hkey : e1.key = k)
    (hPW : List.Pairwise (· < ·) (b.map (fun e => τ e.key)))
    (hnk : k ∉ keysOf b)
    (hupd : ∀ k', k' ≠ k → τ' k' = τ k')
    (hmax : ∀ e ∈ b, τ e.key < τ' k) :
    List.Pairwise (· < ·) ((b ++ [e1]).map (fun e => τ' e.key)) := by
  rw [List.map_append, List.pairwise_append, map_touch_congr hnk hupd]
  refine ⟨hPW, by simp, ?_⟩
  intro a ha c hc
  simp only [List.map_cons, List.map_nil, List.mem_singleton] at hc
  obtain ⟨e, he, rfl⟩ := List.mem_map.1 ha
  subst hc
  rw [hkey]
  exact hmax e he

theorem bucketKeys_eq_nil {bs : List (Nat × List (cacheElement K V))}
    (h : bucketKeys bs = []) : bs = [] := by
  cases bs with
  | nil => rfl
  | cons p bs => simp [bucketKeys] at h

theorem mem_keysOf {l : List (cacheElement K V)} {k : K} :
    k ∈ keysOf l ↔ ∃ e ∈ l, e.key = k := by
  simp [keysOf, List.mem_map]

theorem keys_not_in_bucket {p : Nat × List (cacheElement K V)} {bs} (hp : p ∈ bs)
    {k : K} (h : k ∉ keysOf (entriesOf bs)) : k ∉ keysOf p.2 := by
  intro hm
  apply h
  obtain ⟨e, he, hek⟩ := mem_keysOf.1 hm
  exact mem_keysOf.2 ⟨e, mem_entriesOf.2 ⟨p, hp, he⟩, hek⟩

/-- Two entry lists agreeing outside a key agree on all lookups away
from that key. -/
theorem frame_of_removeAllKey {A B : List (cacheElement K V)} {k : K}
    (h : removeAllKey A k = removeAllKey B k) :
    ∀ k'', k'' ≠ k → findInList A k'' = findInList B k'' := by
  intro k'' hk
  rw [← findInList_removeAllKey (l := A) hk, h, findInList_removeAllKey hk]

/-- Common core of the four final shapes of `incrementFrequency`: the
result consists of the untouched prefix `bs₁`, the old bucket `M` (kept
iff it did not empty), the target bucket `ef + 1` holding its old
contents `C` with the bumped entry appended, and the untouched suffix
`tail`. -/
theorem incr_finish {s r : CacheImpl K V} {τ τ' : K → Nat} {t t' : Nat} {k : K}
    {ev : V} {ef : Nat} {bs₁ bs₂ T M : List (Nat × List (cacheElement K V))}
    {b₁ b₂ C : List (cacheElement K V)}
    (hInv : Inv s τ t)
    (hb : s.buckets = bs₁ ++ (ef, b₁ ++ ⟨k, ev, ef⟩ :: b₂) :: bs₂)
    (hupd : ∀ k', k' ≠ k → τ' k' = τ k')
    (hmax : ∀ e' ∈ entriesOf s.buckets, e'.key ≠ k → τ e'.key < τ' k)
    (hkc : τ' k < t') (htt : t ≤ t')
    (hCsplit : entriesOf bs₂ = C ++ entriesOf T)
    (hCfreq : ∀ e ∈ C, e.freq = ef + 1)
    (hCrec : List.Pairwise (· < ·) (C.map (fun e => τ e.key)))
    (htailkeys : ∀ y ∈ bucketKeys T, ef + 1 < y)
    (htailPW : List.Pairwise (· < ·) (bucketKeys T))
    (htailmem : ∀ p ∈ T, p ∈ s.buckets)
    (hMsplit : (M = [] ∧ b₁ ++ b₂ = []) ∨ (M = [(ef, b₁ ++ b₂)] ∧ b₁ ++ b₂ ≠ []))
    (hs' : r = ⟨s.capacity, s.size, bs₁ ++ M ++ (ef + 1, C ++ [⟨k, ev, ef + 1⟩]) :: T⟩) :
    Inv r τ' t' ∧
      findEntry r k = some ⟨k, ev, ef + 1⟩ ∧
      (∀ k'', k'' ≠ k → findEntry r k'' = findEntry s k'') ∧
      removeAllKey (entriesOf r.buckets) k = removeAllKey (entriesOf s.buckets) k ∧
      (∃ bl, findFreq r.buckets (ef + 1) = some bl ∧
        bl.getLast? = some ⟨k, ev, ef + 1⟩) ∧
      List.Perm (entriesOf r.buckets)
        (⟨k, ev, ef + 1⟩ :: removeAllKey (entriesOf s.buckets) k) := by
  have hbK : bucketKeys s.buckets = bucketKeys bs₁ ++ ef :: bucketKeys bs₂ := by
    rw [hb]
    simp
  have hsorted := hInv.sorted
  rw [hbK] at hsorted
  obtain ⟨hlt₁, hgt₂, hPW₁, hPW₂⟩ := sorted_parts hsorted
  have hE : entriesOf s.buckets
      = entriesOf bs₁ ++ (b₁ ++ ⟨k, ev, ef⟩ :: b₂) ++ (C ++ entriesOf T) := by
    rw [hb]
    simp [hCsplit]
  have hndK : (keysOf (entriesOf bs₁) ++ (keysOf b₁ ++ k :: keysOf b₂)
      ++ (keysOf C ++ keysOf (entriesOf T))).Nodup := by
    have hnd := hInv.nodupKeys
    rw [hE] at hnd
    simpa using hnd
  obtain ⟨hkE₁, hkb₁, hkb₂, hkCt⟩ := nodup_parts hndK
  have hkC : k ∉ keysOf C := fun hm => hkCt (List.mem_append_left _ hm)
  have hkEt : k ∉ keysOf (entriesOf T) := fun hm => hkCt (List.mem_append_right _ hm)
  have hef1 : 1 ≤ ef :=
    hInv.onePos (ef, b₁ ++ ⟨k, ev, ef⟩ :: b₂) (by rw [hb]; simp)
  have hmemC : ∀ e ∈ C, e ∈ entriesOf s.buckets := by
    intro e he
    rw [hE]
    simp [he]
  have hEM : entriesOf M = b₁ ++ b₂ := by
    rcases hMsplit with ⟨rfl, hbb⟩ | ⟨rfl, hbb⟩
    · simpa using hbb.symm
    · simp
  have hkbb : k ∉ keysOf (b₁ ++ b₂) := by
    simp only [keysOf_append, List.mem_append]
    rintro (h | h)
    · exact hkb₁ h
    · exact hkb₂ h
  have hEX : entriesOf r.buckets
      = entriesOf bs₁ ++ ((b₁ ++ b₂) ++ (C ++ ⟨k, ev, ef + 1⟩ :: entriesOf T)) := by
    rw [hs']
    simp [hEM]
  -- the old and new flat key lists are permutations of each other
  have hkeysperm : List.Perm (keysOf (entriesOf r.buckets)) (keysOf (entriesOf s.buckets)) := by
    rw [hEX, hE]
    simp only [keysOf_append, keysOf_cons]
    rw [List.perm_iff_count]
    intro a
    simp only [List.count_append, List.count_cons]
    omega
  have hnodupX : (keysOf (entriesOf r.buckets)).Nodup :=
    (hkeysperm.symm).nodup hInv.nodupKeys
  have hfindX : findEntry r k = some ⟨k, ev, ef + 1⟩ := by
    show findInList _ k = _
    rw [hEX, findInList_append_not_mem hkE₁, findInList_append_not_mem hkbb,
      findInList_append_not_mem hkC, findInList_cons_self rfl]
  have hrmX : removeAllKey (entriesOf r.buckets) k
      = removeAllKey (entriesOf s.buckets) k := by
    rw [hEX, hE]
    simp [removeAllKey_append, removeAllKey_not_mem hkE₁, removeAllKey_not_mem hkb₁,
      removeAllKey_not_mem hkb₂, removeAllKey_not_mem hkC, removeAllKey_not_mem hkEt,
      removeAllKey_cons_self (e := (⟨k, ev, ef⟩ : cacheElement K V)) rfl,
      removeAllKey_cons_self (e := (⟨k, ev, ef + 1⟩ : cacheElement K V)) rfl]
  have hpermX : List.Perm (entriesOf r.buckets)
      (⟨k, ev, ef + 1⟩ :: removeAllKey (entriesOf s.buckets) k) := by
    rw [← hrmX]
    exact perm_removeAllKey_cons hfindX hnodupX
  have hlenX : (entriesOf r.buckets).length = (entriesOf s.buckets).length := by
    have := hkeysperm.length_eq
    simpa [keysOf] using this
  refine ⟨?_, hfindX, frame_of_removeAllKey hrmX, hrmX, ?_, hpermX⟩
  · -- the invariant
    refine ⟨?_, ?_, ?_, ?_, hnodupX, ?_, ?_, ?_, ?_⟩
    · -- sorted
      have hKX : bucketKeys r.buckets
          = bucketKeys bs₁ ++ (bucketKeys M ++ [ef + 1]) ++ bucketKeys T := by
        rw [hs']
        simp
      rw [hKX]
      apply sorted_around hlt₁ htailkeys hPW₁ htailPW
      · rcases hMsplit with ⟨rfl, -⟩ | ⟨rfl, -⟩ <;> simp [bucketKeys] <;> try omega
      · rcases hMsplit with ⟨rfl, -⟩ | ⟨rfl, -⟩ <;> simp [bucketKeys] <;> try omega
      · rcases hMsplit with ⟨rfl, -⟩ | ⟨rfl, -⟩ <;> simp [bucketKeys] <;> try omega
    · -- all buckets non-empty
      intro p hp
      rw [hs'] at hp
      simp only [List.mem_append, List.mem_cons] at hp
      rcases hp with (hp | hp) | hp | hp
      · exact hInv.nonemp p (by rw [hb]; simp [hp])
      · rcases hMsplit with ⟨rfl, -⟩ | ⟨rfl, hbb⟩
        · simp at hp
        · simp only [List.mem_singleton] at hp
          subst hp
          exact hbb
      · subst hp
        simp
      · exact hInv.nonemp p (htailmem p hp)
    · -- entry frequencies match bucket registration
      intro p hp
      rw [hs'] at hp
      simp only [List.mem_append, List.mem_cons] at hp
      rcases hp with (hp | hp) | hp | hp
      · exact hInv.freqEq p (by rw [hb]; simp [hp])
      · rcases hMsplit with ⟨rfl, -⟩ | ⟨rfl, -⟩
        · simp at hp
        · simp only [List.mem_singleton] at hp
          subst hp
          intro e he
          have := hInv.freqEq (ef, b₁ ++ ⟨k, ev, ef⟩ :: b₂) (by rw [hb]; simp) e
          apply this
          simp only [List.mem_append] at he ⊢
          rcases he with he | he
          · exact Or.inl he
          · exact Or.inr (List.mem_cons_of_mem _ he)
      · subst hp
        intro e he
        simp only [List.mem_append, List.mem_singleton] at he
        rcases he with he | rfl
        · exact hCfreq e he
        · rfl
      · exact hInv.freqEq p (htailmem p hp)
    · -- all registered frequencies are at least 1
      intro p hp
      rw [hs'] at hp
      simp only [List.mem_append, List.mem_cons] at hp
      rcases hp with (hp | hp) | hp | hp
      · exact hInv.onePos p (by rw [hb]; simp [hp])
      · rcases hMsplit with ⟨rfl, -⟩ | ⟨rfl, -⟩
        · simp at hp
        · simp only [List.mem_singleton] at hp
          subst hp
          exact hef1
      · subst hp
        omega
      · exact hInv.onePos p (htailmem p hp)
    · -- size bookkeeping
      rw [hs']
      show s.size = _
      rw [show entriesOf (bs₁ ++ M ++ (ef + 1, C ++ [⟨k, ev, ef + 1⟩]) :: T)
            = entriesOf r.buckets by rw [hs'], hlenX]
      exact hInv.sizeEq
    · -- size is bounded by capacity
      rw [hs']
      exact hInv.sizeLe
    · -- within-bucket recency chains
      intro p hp
      rw [hs'] at hp
      simp only [List.mem_append, List.mem_cons] at hp
      rcases hp with (hp | hp) | hp | hp
      · have hpmem : p ∈ s.buckets := by rw [hb]; simp [hp]
        have hknot : k ∉ keysOf p.2 := keys_not_in_bucket hp hkE₁
        rw [map_touch_congr hknot hupd]
        exact hInv.recency p hpmem
      · rcases hMsplit with ⟨rfl, -⟩ | ⟨rfl, -⟩
        · simp at hp
        · simp only [List.mem_singleton] at hp
          subst hp
          show List.Pairwise _ ((b₁ ++ b₂).map _)
          rw [map_touch_congr hkbb hupd]
          have hold := hInv.recency (ef, b₁ ++ ⟨k, ev, ef⟩ :: b₂) (by rw [hb]; simp)
          refine hold.sublist ?_
          apply List.Sublist.map
          exact (List.sublist_cons_self _ _).append_left b₁
      · subst hp
        show List.Pairwise _ ((C ++ [_]).map _)
        apply recency_append rfl hCrec hkC hupd
        intro e he
        apply hmax e (hmemC e he)
        intro hek
        exact hkC (by rw [← hek]; exact List.mem_map_of_mem _ he)
      · have hpmem := htailmem p hp
        have hknot : k ∉ keysOf p.2 := keys_not_in_bucket hp hkEt
        rw [map_touch_congr hknot hupd]
        exact hInv.recency p hpmem
    · -- all touch stamps are in the past
      intro e he
      have := hpermX.mem_iff.1 he
      simp only [List.mem_cons] at this
      rcases this with rfl | hmem
      · exact hkc
      · obtain ⟨hm, hkne⟩ := mem_removeAllKey.1 hmem
        rw [hupd _ hkne]
        have := hInv.touchLt e hm
        omega
  · -- the bumped entry is the most recently used of bucket `ef + 1`
    refine ⟨C ++ [⟨k, ev, ef + 1⟩], ?_, by simp⟩
    rw [hs']
    show findFreq (bs₁ ++ M ++ _ :: T) _ = _
    have h1nm : ef + 1 ∉ bucketKeys bs₁ := by
      intro hm
      have := hlt₁ _ hm
      omega
    rw [List.append_assoc, findFreq_append_not_mem h1nm]
    rcases hMsplit with ⟨rfl, -⟩ | ⟨rfl, -⟩
    · simp
    · have : ¬ (ef = ef + 1) := by omega
      simp [findFreq, this]

/-- The heart of the embedding: `incrementFrequency` on a stored entry
succeeds, keeps size and capacity, bumps exactly that entry's frequency
by one and makes it most recently used at the new frequency, leaves all
other entries (and their order) untouched, and preserves the invariant
for the ghost data in which the touched key has just been stamped. -/
theorem incrementFrequency_spec {s : CacheImpl K V} {τ τ' : K → Nat} {t t' : Nat}
    {k : K} {e0 : cacheElement K V}
    (hInv : Inv s τ t)
    (hfind : findEntry s k = some e0)
    (hupd : ∀ k', k' ≠ k → τ' k' = τ k')
    (hmax : ∀ e' ∈ entriesOf s.buckets, e'.key ≠ k → τ e'.key < τ' k)
    (hkc : τ' k < t') (htt : t ≤ t') :
    ∃ s', incrementFrequency s e0 = some s' ∧
      s'.capacity = s.capacity ∧ s'.size = s.size ∧
      Inv s' τ' t' ∧
      findEntry s' k = some ⟨k, e0.value, e0.freq + 1⟩ ∧
      (∀ k'', k'' ≠ k → findEntry s' k'' = findEntry s k'') ∧
      removeAllKey (entriesOf s'.buckets) k = removeAllKey (entriesOf s.buckets) k ∧
      (∃ bl, findFreq s'.buckets (e0.freq + 1) = some bl ∧
        bl.getLast? = some ⟨k, e0.value, e0.freq + 1⟩) ∧
      List.Perm (entriesOf s'.buckets)
        (⟨k, e0.value, e0.freq + 1⟩ :: removeAllKey (entriesOf s.buckets) k) := by
  obtain ⟨bs₁, b₁, b₂, bs₂, hb, hkey⟩ := findEntry_locate hInv hfind
  obtain ⟨ek, ev, ef⟩ := e0
  have hkey' : ek = k := hkey
  subst hkey'
  have hbK : bucketKeys s.buckets = bucketKeys bs₁ ++ ef :: bucketKeys bs₂ := by
    rw [hb]
    simp
  have hsorted := hInv.sorted
  rw [hbK] at hsorted
  obtain ⟨hlt₁, hgt₂, hPW₁, hPW₂⟩ := sorted_parts hsorted
  have hE : entriesOf s.buckets
      = entriesOf bs₁ ++ (b₁ ++ ⟨ek, ev, ef⟩ :: b₂) ++ entriesOf bs₂ := by
    rw [hb]
    simp
  have hndK : (keysOf (entriesOf bs₁) ++ (keysOf b₁ ++ ek :: keysOf b₂)
      ++ keysOf (entriesOf bs₂)).Nodup := by
    have hnd := hInv.nodupKeys
    rw [hE] at hnd
    simpa using hnd
  obtain ⟨hkE₁, hkb₁, hkb₂, hkE₂⟩ := nodup_parts hndK
  have hef1 : 1 ≤ ef :=
    hInv.onePos (ef, b₁ ++ ⟨ek, ev, ef⟩ :: b₂) (by rw [hb]; simp)
  have hfnm₁ : ef ∉ bucketKeys bs₁ := fun hm => absurd (hlt₁ ef hm) (lt_irrefl ef)
  have hf1nm₁ : ef + 1 ∉ bucketKeys bs₁ := by
    intro hm
    have := hlt₁ _ hm
    omega
  have hff : findFreq s.buckets ef = some (b₁ ++ ⟨ek, ev, ef⟩ :: b₂) := by
    rw [hb, findFreq_append_not_mem hfnm₁, findFreq_cons_self]
  have herase : eraseKey (b₁ ++ ⟨ek, ev, ef⟩ :: b₂) ek = b₁ ++ b₂ := by
    rw [eraseKey_append_not_mem hkb₁, eraseKey_cons_self rfl]
  have hrep : replaceFreq s.buckets ef (b₁ ++ b₂) = bs₁ ++ (ef, b₁ ++ b₂) :: bs₂ := by
    rw [hb, replaceFreq_append_not_mem hfnm₁, replaceFreq_cons_self]
  have hne : ¬ (ef = ef + 1) := by omega
  have hanchor : findFreq (bs₁ ++ (ef, b₁ ++ b₂) :: bs₂) ef = some (b₁ ++ b₂) := by
    rw [findFreq_append_not_mem hfnm₁, findFreq_cons_self]
  have hne1 : ¬ (ef + 1 = 1) := by omega
  have htailmem₂ : ∀ p ∈ bs₂, p ∈ s.buckets := by
    intro p hp
    rw [hb]
    simp [hp]
  rcases hC : findFreq bs₂ (ef + 1) with _ | C
  · -- the bucket for the new frequency does not exist yet: PushAfter creates it
    have hCnm : ef + 1 ∉ bucketKeys bs₂ := findFreq_eq_none.1 hC
    have hfnew : findFreq (bs₁ ++ (ef, b₁ ++ b₂) :: bs₂) (ef + 1) = none := by
      rw [findFreq_append_not_mem hf1nm₁]
      simp [findFreq, hne, hC]
    have hins : insertAfterFreq (bs₁ ++ (ef, b₁ ++ b₂) :: bs₂) ef
        (ef + 1, [⟨ek, ev, ef + 1⟩])
        = bs₁ ++ (ef, b₁ ++ b₂) :: (ef + 1, [⟨ek, ev, ef + 1⟩]) :: bs₂ := by
      rw [insertAfterFreq_append_not_mem hfnm₁, insertAfterFreq_cons_self]
    have htk : ∀ y ∈ bucketKeys bs₂, ef + 1 < y := by
      intro y hy
      have h1 := hgt₂ y hy
      have h2 : y ≠ ef + 1 := fun hh => hCnm (hh ▸ hy)
      omega
    by_cases hbb : (b₁ ++ b₂).length = 0
    · -- the vacated bucket is destroyed
      have hbbnil : b₁ ++ b₂ = [] := List.length_eq_zero.1 hbb
      have hrmf : removeFreq (bs₁ ++ (ef, b₁ ++ b₂) :: (ef + 1, [⟨ek, ev, ef + 1⟩]) :: bs₂) ef
          = bs₁ ++ (ef + 1, [⟨ek, ev, ef + 1⟩]) :: bs₂ := by
        rw [removeFreq_append_not_mem hfnm₁, removeFreq_cons_self]
      have hcomp : incrementFrequency s ⟨ek, ev, ef⟩
          = some { s with buckets := bs₁ ++ (ef + 1, [⟨ek, ev, ef + 1⟩]) :: bs₂ } := by
        simp only [incrementFrequency, hff, herase, hrep, pushToFrequency, hfnew, hne1,
          if_false, Nat.add_sub_cancel, hanchor, hins, hbb, if_true, hrmf]
      obtain ⟨hI, h1, h2, h3, h4, h5⟩ := incr_finish
        (r := { s with buckets := bs₁ ++ (ef + 1, [⟨ek, ev, ef + 1⟩]) :: bs₂ })
        (C := []) (M := []) (T := bs₂)
        hInv hb hupd hmax hkc htt (by simp) (by simp) (by simp)
        htk hPW₂ htailmem₂ (Or.inl ⟨rfl, hbbnil⟩) (by simp)
      exact ⟨_, hcomp, rfl, rfl, hI, h1, h2, h3, h4, h5⟩
    · -- the vacated bucket still holds entries
      have hcomp : incrementFrequency s ⟨ek, ev, ef⟩
          = some { s with buckets :=
              bs₁ ++ (ef, b₁ ++ b₂) :: (ef + 1, [⟨ek, ev, ef + 1⟩]) :: bs₂ } := by
        simp only [incrementFrequency, hff, herase, hrep, pushToFrequency, hfnew, hne1,
          if_false, Nat.add_sub_cancel, hanchor, hins, hbb, if_false]
      obtain ⟨hI, h1, h2, h3, h4, h5⟩ := incr_finish
        (r := { s with buckets :=
          bs₁ ++ (ef, b₁ ++ b₂) :: (ef + 1, [⟨ek, ev, ef + 1⟩]) :: bs₂ })
        (C := []) (M := [(ef, b₁ ++ b₂)]) (T := bs₂)
        hInv hb hupd hmax hkc htt (by simp) (by simp) (by simp)
        htk hPW₂ htailmem₂
        (Or.inr ⟨rfl, fun hh => hbb (by rw [hh]; rfl)⟩) (by simp)
      exact ⟨_, hcomp, rfl, rfl, hI, h1, h2, h3, h4, h5⟩
  · -- the bucket for the new frequency exists: it is the immediate successor
    obtain ⟨bs₃, bs₄, hbs₂eq, hnm₃⟩ := findFreq_some_decomp hC
    have hK₂ : bucketKeys bs₂ = bucketKeys bs₃ ++ (ef + 1) :: bucketKeys bs₄ := by
      rw [hbs₂eq]
      simp
    have hPW₂' := hPW₂
    rw [hK₂] at hPW₂'
    obtain ⟨hlt₃, hgt₄, -, hPW₄⟩ := sorted_parts hPW₂'
    have hbs₃nil : bs₃ = [] := by
      apply bucketKeys_eq_nil
      rw [List.eq_nil_iff_forall_not_mem]
      intro x hx
      have h1 := hlt₃ x hx
      have h2 := hgt₂ x (by rw [hK₂]; exact List.mem_append_left _ hx)
      omega
    subst hbs₃nil
    simp only [List.nil_append] at hbs₂eq
    subst hbs₂eq
    have hfex : findFreq (bs₁ ++ (ef, b₁ ++ b₂) :: (ef + 1, C) :: bs₄) (ef + 1)
        = some C := by
      rw [findFreq_append_not_mem hf1nm₁]
      simp [findFreq, hne]
    have hrep2 : replaceFreq (bs₁ ++ (ef, b₁ ++ b₂) :: (ef + 1, C) :: bs₄) (ef + 1)
        (C ++ [⟨ek, ev, ef + 1⟩])
        = bs₁ ++ (ef, b₁ ++ b₂) :: (ef + 1, C ++ [⟨ek, ev, ef + 1⟩]) :: bs₄ := by
      rw [replaceFreq_append_not_mem hf1nm₁]
      simp [replaceFreq, hne]
    have hCmem : (ef + 1, C) ∈ s.buckets := by
      rw [hb]
      simp
    by_cases hbb : (b₁ ++ b₂).length = 0
    · -- the vacated bucket is destroyed
      have hbbnil : b₁ ++ b₂ = [] := List.length_eq_zero.1 hbb
      have hrmf : removeFreq
          (bs₁ ++ (ef, b₁ ++ b₂) :: (ef + 1, C ++ [⟨ek, ev, ef + 1⟩]) :: bs₄) ef
          = bs₁ ++ (ef + 1, C ++ [⟨ek, ev, ef + 1⟩]) :: bs₄ := by
        rw [removeFreq_append_not_mem hfnm₁, removeFreq_cons_self]
      have hcomp : incrementFrequency s ⟨ek, ev, ef⟩
          = some { s with buckets := bs₁ ++ (ef + 1, C ++ [⟨ek, ev, ef + 1⟩]) :: bs₄ } := by
        simp only [incrementFrequency, hff, herase, hrep, pushToFrequency, hfex,
          hrep2, hbb, if_true, hrmf]
      obtain ⟨hI, h1, h2, h3, h4, h5⟩ := incr_finish
        (r := { s with buckets := bs₁ ++ (ef + 1, C ++ [⟨ek, ev, ef + 1⟩]) :: bs₄ })
        (C := C) (M := []) (T := bs₄)
        hInv hb hupd hmax hkc htt (by simp)
        (fun e he => hInv.freqEq (ef + 1, C) hCmem e he)
        (hInv.recency (ef + 1, C) hCmem)
        hgt₄ hPW₄ (fun p hp => by rw [hb]; simp [hp]) (Or.inl ⟨rfl, hbbnil⟩) (by simp)
      exact ⟨_, hcomp, rfl, rfl, hI, h1, h2, h3, h4, h5⟩
    · -- the vacated bucket still holds entries
      have hcomp : incrementFrequency s ⟨ek, ev, ef⟩
          = some { s with buckets :=
              bs₁ ++ (ef, b₁ ++ b₂) :: (ef + 1, C ++ [⟨ek, ev, ef + 1⟩]) :: bs₄ } := by
        simp only [incrementFrequency, hff, herase, hrep, pushToFrequency, hfex,
          hrep2, hbb, if_false]
      obtain ⟨hI, h1, h2, h3, h4, h5⟩ := incr_finish
        (r := { s with buckets :=
          bs₁ ++ (ef, b₁ ++ b₂) :: (ef + 1, C ++ [⟨ek, ev, ef + 1⟩]) :: bs₄ })
        (C := C) (M := [(ef, b₁ ++ b₂)]) (T := bs₄)
        hInv hb hupd hmax hkc htt (by simp)
        (fun e he => hInv.freqEq (ef + 1, C) hCmem e he)
        (hInv.recency (ef + 1, C) hCmem)
        hgt₄ hPW₄ (fun p hp => by rw [hb]; simp [hp])
        (Or.inr ⟨rfl, fun hh => hbb (by rw [hh]; rfl)⟩) (by simp)
      exact ⟨_, hcomp, rfl, rfl, hI, h1, h2, h3, h4, h5⟩

/-- The invariant only looks at keys and frequencies, so replacing one
entry by another with the same key and frequency (an in-place value
overwrite) preserves it. -/
theorem Inv_congr_entry {s s' : CacheImpl K V} {τ : K → Nat} {t : Nat}
    {bs₁ bs₂ : List (Nat × List (cacheElement K V))} {f : Nat}
    {b₁ b₂ : List (cacheElement K V)} {e d : cacheElement K V}
    (hkey : d.key = e.key) (hfreq : d.freq = e.freq)
    (hs : s.buckets = bs₁ ++ (f, b₁ ++ e :: b₂) :: bs₂)
    (hs' : s'.buckets = bs₁ ++ (f, b₁ ++ d :: b₂) :: bs₂)
    (hcap : s'.capacity = s.capacity) (hsize : s'.size = s.size)
    (hInv : Inv s τ t) : Inv s' τ t := by
  have hmid : (f, b₁ ++ e :: b₂) ∈ s.buckets := by
    rw [hs]
    simp
  have hKeq : keysOf (entriesOf s'.buckets) = keysOf (entriesOf s.buckets) := by
    rw [hs, hs']
    simp [hkey]
  refine ⟨?_, ?_, ?_, ?_, ?_, ?_, ?_, ?_, ?_⟩
  · have : bucketKeys s'.buckets = bucketKeys s.buckets := by
      rw [hs, hs']
      simp
    rw [this]
    exact hInv.sorted
  · intro p hp
    rw [hs'] at hp
    simp only [List.mem_append, List.mem_cons] at hp
    rcases hp with hp | hp | hp
    · exact hInv.nonemp p (by rw [hs]; simp [hp])
    · subst hp
      simp
    · exact hInv.nonemp p (by rw [hs]; simp [hp])
  · intro p hp
    rw [hs'] at hp
    simp only [List.mem_append, List.mem_cons] at hp
    rcases hp with hp | hp | hp
    · exact hInv.freqEq p (by rw [hs]; simp [hp])
    · subst hp
      intro a ha
      simp only [List.mem_append, List.mem_cons] at ha
      have hold := hInv.freqEq (f, b₁ ++ e :: b₂) hmid
      rcases ha with ha | rfl | ha
      · exact hold a (by simp [ha])
      · rw [hfreq]
        exact hold e (by simp)
      · exact hold a (by simp [ha])
    · exact hInv.freqEq p (by rw [hs]; simp [hp])
  · intro p hp
    rw [hs'] at hp
    simp only [List.mem_append, List.mem_cons] at hp
    rcases hp with hp | hp | hp
    · exact hInv.onePos p (by rw [hs]; simp [hp])
    · subst hp
      exact hInv.onePos (f, b₁ ++ e :: b₂) hmid
    · exact hInv.onePos p (by rw [hs]; simp [hp])
  · rw [hKeq]
    exact hInv.nodupKeys
  · have : (entriesOf s'.buckets).length = (entriesOf s.buckets).length := by
      have := congrArg List.length hKeq
      simpa [keysOf] using this
    rw [hsize, this]
    exact hInv.sizeEq
  · rw [hsize, hcap]
    exact hInv.sizeLe
  · intro p hp
    rw [hs'] at hp
    simp only [List.mem_append, List.mem_cons] at hp
    rcases hp with hp | hp | hp
    · exact hInv.recency p (by rw [hs]; simp [hp])
    · subst hp
      have : (b₁ ++ d :: b₂).map (fun a => τ a.key)
          = (b₁ ++ e :: b₂).map (fun a => τ a.key) := by
        simp [hkey]
      show List.Pairwise _ ((b₁ ++ d :: b₂).map _)
      rw [this]
      exact hInv.recency (f, b₁ ++ e :: b₂) hmid
    · exact hInv.recency p (by rw [hs]; simp [hp])
  · intro a ha
    rw [hs'] at ha
    have halt : a = d ∨ a ∈ entriesOf s.buckets := by
      rw [hs]
      simp only [entriesOf_append, entriesOf_cons, List.mem_append, List.mem_cons] at ha ⊢
      tauto
    rcases halt with rfl | hmem
    · rw [hkey]
      refine hInv.touchLt e ?_
      rw [hs]
      simp
    · exact hInv.touchLt a hmem

/-- Running `addNewEntry` on a fresh key below capacity: inserts the entry with
frequency 1 at the tail of the frequency-1 bucket (creating that bucket
at the head of the bucket list if needed), increments `size`, and leaves
everything else untouched. -/
theorem addNewEntry_spec {s : CacheImpl K V} {τ τ' : K → Nat} {t t' : Nat} {k : K} {v : V}
    (hInv : Inv s τ t)
    (hfresh : findEntry s k = none)
    (hupd : ∀ k', k' ≠ k → τ' k' = τ k')
    (hmax : ∀ e' ∈ entriesOf s.buckets, e'.key ≠ k → τ e'.key < τ' k)
    (hkc : τ' k < t') (htt : t ≤ t')
    (hsz : s.size < s.capacity) :
    ∃ s', addNewEntry s k v = some s' ∧
      s'.capacity = s.capacity ∧ s'.size = s.size + 1 ∧
      Inv s' τ' t' ∧
      findEntry s' k = some ⟨k, v, 1⟩ ∧
      (∀ k'', k'' ≠ k → findEntry s' k'' = findEntry s k'') ∧
      removeAllKey (entriesOf s'.buckets) k = entriesOf s.buckets ∧
      List.Perm (entriesOf s'.buckets) (⟨k, v, 1⟩ :: entriesOf s.buckets) := by
  have hknotin : k ∉ keysOf (entriesOf s.buckets) := findInList_eq_none.1 hfresh
  have hge1 : ∀ y ∈ bucketKeys s.buckets, 1 ≤ y := by
    intro y hy
    simp only [bucketKeys, List.mem_map] at hy
    obtain ⟨p, hp, rfl⟩ := hy
    exact hInv.onePos p hp
  have hkeyne : ∀ a ∈ entriesOf s.buckets, a.key ≠ k := by
    intro a ha hk
    exact hknotin (by rw [← hk]; exact List.mem_map_of_mem _ ha)
  rcases h1 : findFreq s.buckets 1 with _ | b
  · -- no frequency-1 bucket: create it at the head of the bucket list
    have hcomp : addNewEntry s k v
        = some ⟨s.capacity, s.size + 1, (1, [⟨k, v, 1⟩]) :: s.buckets⟩ := by
      simp only [addNewEntry, pushToFrequency, h1, if_true]
    have h1nm : (1 : Nat) ∉ bucketKeys s.buckets := findFreq_eq_none.1 h1
    refine ⟨_, hcomp, rfl, rfl, ?_, ?_, ?_, ?_, ?_⟩
    · refine ⟨?_, ?_, ?_, ?_, ?_, ?_, ?_, ?_, ?_⟩
      · show List.Pairwise _ (bucketKeys ((1, [⟨k, v, 1⟩]) :: s.buckets))
        rw [bucketKeys_cons, List.pairwise_cons]
        refine ⟨fun y hy => ?_, hInv.sorted⟩
        have hg := hge1 y hy
        have hn : y ≠ 1 := fun hh => h1nm (hh ▸ hy)
        omega
      · intro p hp
        rcases List.mem_cons.1 hp with rfl | hp
        · simp
        · exact hInv.nonemp p hp
      · intro p hp
        rcases List.mem_cons.1 hp with rfl | hp
        · intro a ha
          simp only [List.mem_singleton] at ha
          subst ha
          rfl
        · exact hInv.freqEq p hp
      · intro p hp
        rcases List.mem_cons.1 hp with rfl | hp
        · exact le_refl 1
        · exact hInv.onePos p hp
      · show (keysOf (entriesOf _)).Nodup
        simp only [entriesOf_cons, List.singleton_append, keysOf_cons]
        exact List.nodup_cons.2 ⟨hknotin, hInv.nodupKeys⟩
      · show s.size + 1 = (entriesOf _).length
        simp only [entriesOf_cons, List.singleton_append, List.length_cons]
        rw [← hInv.sizeEq]
      · show s.size + 1 ≤ s.capacity
        omega
      · intro p hp
        rcases List.mem_cons.1 hp with rfl | hp
        · simp
        · rw [map_touch_congr (keys_not_in_bucket hp hknotin) hupd]
          exact hInv.recency p hp
      · intro a ha
        simp only [entriesOf_cons, List.singleton_append, List.mem_cons] at ha
        rcases ha with rfl | ha
        · exact hkc
        · rw [hupd _ (hkeyne a ha)]
          have := hInv.touchLt a ha
          omega
    · show findInList (entriesOf _) k = _
      simp only [entriesOf_cons, List.singleton_append]
      exact findInList_cons_self rfl
    · intro k'' hk
      show findInList (entriesOf _) k'' = _
      simp only [entriesOf_cons, List.singleton_append]
      have : (⟨k, v, 1⟩ : cacheElement K V).key = k := rfl
      simp only [findInList, this, if_neg (Ne.symm hk)]
      rfl
    · show removeAllKey (entriesOf _) k = _
      simp only [entriesOf_cons, List.singleton_append]
      rw [removeAllKey_cons_self rfl, removeAllKey_not_mem hknotin]
    · show List.Perm (entriesOf _) _
      simp only [entriesOf_cons, List.singleton_append]
      exact List.Perm.refl _
  · -- the frequency-1 bucket exists: it is the head bucket; push at its tail
    obtain ⟨bs₁, bs₂, hbs, hnm₁⟩ := findFreq_some_decomp h1
    have hbs₁nil : bs₁ = [] := by
      apply bucketKeys_eq_nil
      rw [List.eq_nil_iff_forall_not_mem]
      intro x hx
      have hxmem : x ∈ bucketKeys s.buckets := by
        rw [hbs]
        simp only [bucketKeys_append, bucketKeys_cons]
        exact List.mem_append_left _ hx
      have h2 := hge1 x hxmem
      have hsorted := hInv.sorted
      rw [hbs] at hsorted
      simp only [bucketKeys_append, bucketKeys_cons] at hsorted
      obtain ⟨hlt₁, -, -, -⟩ := sorted_parts hsorted
      have := hlt₁ x hx
      omega
    subst hbs₁nil
    simp only [List.nil_append] at hbs
    have hE : entriesOf s.buckets = b ++ entriesOf bs₂ := by
      rw [hbs]
      simp
    have hkb : k ∉ keysOf b := by
      intro hm
      apply hknotin
      rw [hE]
      simp [hm]
    have hkE₂ : k ∉ keysOf (entriesOf bs₂) := by
      intro hm
      apply hknotin
      rw [hE]
      simp [hm]
    have hcomp : addNewEntry s k v
        = some ⟨s.capacity, s.size + 1, (1, b ++ [⟨k, v, 1⟩]) :: bs₂⟩ := by
      simp only [addNewEntry, pushToFrequency, h1]
      rw [show replaceFreq s.buckets 1 (b ++ [⟨k, v, 1⟩])
            = (1, b ++ [⟨k, v, 1⟩]) :: bs₂ by rw [hbs, replaceFreq_cons_self]]
    have hKold : bucketKeys s.buckets = 1 :: bucketKeys bs₂ := by
      rw [hbs]
      simp
    have hb1mem : (1, b) ∈ s.buckets := by
      rw [hbs]
      simp
    have htailmem : ∀ p ∈ bs₂, p ∈ s.buckets := by
      intro p hp
      rw [hbs]
      simp [hp]
    have hE' : entriesOf ((1, b ++ [(⟨k, v, 1⟩ : cacheElement K V)]) :: bs₂)
        = b ++ ⟨k, v, 1⟩ :: entriesOf bs₂ := by
      simp
    refine ⟨_, hcomp, rfl, rfl, ?_, ?_, ?_, ?_, ?_⟩
    · refine ⟨?_, ?_, ?_, ?_, ?_, ?_, ?_, ?_, ?_⟩
      · show List.Pairwise _ (bucketKeys ((1, _) :: bs₂))
        rw [bucketKeys_cons]
        have hso := hInv.sorted
        rw [hKold] at hso
        exact hso
      · intro p hp
        rcases List.mem_cons.1 hp with rfl | hp
        · simp
        · exact hInv.nonemp p (htailmem p hp)
      · intro p hp
        rcases List.mem_cons.1 hp with rfl | hp
        · intro a ha
          simp only [List.mem_append, List.mem_singleton] at ha
          rcases ha with ha | rfl
          · exact hInv.freqEq (1, b) hb1mem a ha
          · rfl
        · exact hInv.freqEq p (htailmem p hp)
      · intro p hp
        rcases List.mem_cons.1 hp with rfl | hp
        · exact le_refl 1
        · exact hInv.onePos p (htailmem p hp)
      · show (keysOf (entriesOf _)).Nodup
        rw [hE']
        have hperm : List.Perm (keysOf (b ++ ⟨k, v, 1⟩ :: entriesOf bs₂))
            (k :: keysOf (entriesOf s.buckets)) := by
          rw [hE]
          simp only [keysOf_append, keysOf_cons]
          rw [List.perm_iff_count]
          intro a
          simp only [List.count_append, List.count_cons]
          omega
        exact (hperm.nodup_iff).2 (List.nodup_cons.2 ⟨hknotin, hInv.nodupKeys⟩)
      · show s.size + 1 = (entriesOf _).length
        rw [hE']
        have := hInv.sizeEq
        rw [hE] at this
        simp only [List.length_append, List.length_cons] at this ⊢
        omega
      · show s.size + 1 ≤ s.capacity
        omega
      · intro p hp
        rcases List.mem_cons.1 hp with rfl | hp
        · show List.Pairwise _ ((b ++ [_]).map _)
          apply recency_append rfl ?_ hkb hupd
          · intro a ha
            apply hmax a (by rw [hE]; simp [ha])
            exact hkeyne a (by rw [hE]; simp [ha])
          · have := hInv.recency (1, b) hb1mem
            exact this
        · rw [map_touch_congr (keys_not_in_bucket hp hkE₂) hupd]
          exact hInv.recency p (htailmem p hp)
      · intro a ha
        rw [hE'] at ha
        simp only [List.mem_append, List.mem_cons] at ha
        rcases ha with ha | rfl | ha
        · have ham : a ∈ entriesOf s.buckets := by rw [hE]; simp [ha]
          rw [hupd _ (hkeyne a ham)]
          have := hInv.touchLt a ham
          omega
        · exact hkc
        · have ham : a ∈ entriesOf s.buckets := by rw [hE]; simp [ha]
          rw [hupd _ (hkeyne a ham)]
          have := hInv.touchLt a ham
          omega
    · show findInList (entriesOf _) k = _
      rw [hE', findInList_append_not_mem hkb, findInList_cons_self rfl]
    · intro k'' hk
      show findInList (entriesOf _) k'' = findInList (entriesOf s.buckets) k''
      rw [hE', hE]
      rcases hmem : findInList b k'' with _ | a
      · rw [findInList_append_not_mem (findInList_eq_none.1 hmem),
          findInList_append_not_mem (findInList_eq_none.1 hmem)]
        simp [findInList, Ne.symm hk]
      · obtain ⟨l₁, l₂, hbeq, hnm, hak⟩ := findInList_some_decomp hmem
        rw [hbeq]
        simp only [List.append_assoc, List.cons_append]
        rw [findInList_append_not_mem hnm, findInList_append_not_mem hnm,
          findInList_cons_self hak, findInList_cons_self hak]
    · show removeAllKey (entriesOf _) k = _
      rw [hE', hE, removeAllKey_append, removeAllKey_not_mem hkb,
        removeAllKey_cons_self rfl, removeAllKey_not_mem hkE₂]
    · show List.Perm (entriesOf _) _
      rw [hE', hE]
      rw [List.perm_iff_count]
      intro a
      simp only [List.count_append, List.count_cons]
      omega

/-- Running `evictLFU` on a non-empty cache: removes exactly the head entry of
the head bucket — the least recently used entry of the lowest frequency
in use — decrements `size`, destroys the head bucket if it emptied, and
preserves the invariant (the ghost data is untouched). -/
theorem evictLFU_spec {s : CacheImpl K V} {τ : K → Nat} {t : Nat}
    (hInv : Inv s τ t) {f : Nat} {e0 : cacheElement K V} {b' : List (cacheElement K V)}
    {rest : List (Nat × List (cacheElement K V))}
    (hb : s.buckets = (f, e0 :: b') :: rest) :
    ∃ s', evictLFU s = some s' ∧
      s'.capacity = s.capacity ∧ s'.size = s.size - 1 ∧ 1 ≤ s.size ∧
      Inv s' τ t ∧
      entriesOf s.buckets = e0 :: entriesOf s'.buckets ∧
      findEntry s' e0.key = none ∧
      (∀ k', k' ≠ e0.key → findEntry s' k' = findEntry s k') ∧
      (∀ e ∈ entriesOf s.buckets, e0.freq ≤ e.freq) ∧
      (∀ e ∈ entriesOf s.buckets, e.freq = e0.freq → e.key ≠ e0.key →
        τ e0.key < τ e.key) := by
  have hmid : (f, e0 :: b') ∈ s.buckets := by
    rw [hb]
    simp
  have he0f : e0.freq = f := hInv.freqEq _ hmid e0 (by simp)
  have hE : entriesOf s.buckets = e0 :: (b' ++ entriesOf rest) := by
    rw [hb]
    simp
  have hsorted := hInv.sorted
  rw [hb, bucketKeys_cons] at hsorted
  rw [List.pairwise_cons] at hsorted
  obtain ⟨hfrest, hPWrest⟩ := hsorted
  have hnodup := hInv.nodupKeys
  rw [hE, keysOf_cons] at hnodup
  rw [List.nodup_cons] at hnodup
  obtain ⟨hk0, hndtail⟩ := hnodup
  have hsz : 1 ≤ s.size := by
    have := hInv.sizeEq
    rw [hE] at this
    simp only [List.length_cons] at this
    omega
  have hrec0 := hInv.recency _ hmid
  rw [List.map_cons, List.pairwise_cons] at hrec0
  obtain ⟨hrec0head, hrec0tail⟩ := hrec0
  have hrestmem : ∀ p ∈ rest, p ∈ s.buckets := by
    intro p hp
    rw [hb]
    simp [hp]
  -- the shared facts for both result shapes
  have hcomp : evictLFU s
      = some (⟨s.capacity, s.size - 1,
          if b'.isEmpty then rest else (f, b') :: rest⟩ : CacheImpl K V) := by
    simp only [evictLFU, hb]
  have hE' : entriesOf (if b'.isEmpty then rest else (f, b') :: rest)
      = b' ++ entriesOf rest := by
    by_cases hbe : b'.isEmpty
    · rw [if_pos hbe]
      rw [List.isEmpty_iff] at hbe
      rw [hbe]
      simp
    · rw [if_neg hbe]
      simp
  have hmemresult : ∀ p, p ∈ (if b'.isEmpty then rest else (f, b') :: rest) →
      (p = (f, b') ∧ b' ≠ []) ∨ p ∈ rest := by
    intro p hp
    by_cases hbe : b'.isEmpty
    · rw [if_pos hbe] at hp
      exact Or.inr hp
    · rw [if_neg hbe] at hp
      rcases List.mem_cons.1 hp with rfl | hp
      · refine Or.inl ⟨rfl, fun hnil => hbe (by rw [hnil]; rfl)⟩
      · exact Or.inr hp
  refine ⟨_, hcomp, rfl, rfl, hsz, ?_, ?_, ?_, ?_, ?_, ?_⟩
  · -- the invariant survives
    refine ⟨?_, ?_, ?_, ?_, ?_, ?_, ?_, ?_, ?_⟩
    · show List.Pairwise _ (bucketKeys (if b'.isEmpty then rest else (f, b') :: rest))
      by_cases hbe : b'.isEmpty
      · rw [if_pos hbe]
        exact hPWrest
      · rw [if_neg hbe, bucketKeys_cons, List.pairwise_cons]
        exact ⟨hfrest, hPWrest⟩
    · intro p hp
      rcases hmemresult p hp with ⟨rfl, hbne⟩ | hp
      · exact hbne
      · exact hInv.nonemp p (hrestmem p hp)
    · intro p hp
      rcases hmemresult p hp with ⟨rfl, -⟩ | hp
      · intro e he
        exact hInv.freqEq _ hmid e (List.mem_cons_of_mem _ he)
      · exact hInv.freqEq p (hrestmem p hp)
    · intro p hp
      rcases hmemresult p hp with ⟨rfl, -⟩ | hp
      · exact hInv.onePos (f, e0 :: b') hmid
      · exact hInv.onePos p (hrestmem p hp)
    · show (keysOf (entriesOf _)).Nodup
      rw [hE']
      exact hndtail
    · show s.size - 1 = (entriesOf _).length
      rw [hE']
      have := hInv.sizeEq
      rw [hE] at this
      simp only [List.length_cons] at this
      omega
    · show s.size - 1 ≤ s.capacity
      have := hInv.sizeLe
      omega
    · intro p hp
      rcases hmemresult p hp with ⟨rfl, -⟩ | hp
      · exact hrec0tail
      · exact hInv.recency p (hrestmem p hp)
    · intro e he
      rw [hE'] at he
      apply hInv.touchLt
      rw [hE]
      exact List.mem_cons_of_mem _ he
  · rw [hE, hE']
  · show findInList (entriesOf _) e0.key = none
    rw [hE', findInList_eq_none]
    exact hk0
  · intro k' hk'
    show findInList (entriesOf _) k' = findInList (entriesOf s.buckets) k'
    rw [hE', hE]
    have : e0.key ≠ k' := Ne.symm hk'
    simp [findInList, this]
  · intro e he
    obtain ⟨p, hp, hep⟩ := mem_entriesOf.1 he
    have hef : e.freq = p.1 := hInv.freqEq p hp e hep
    rw [hb] at hp
    rcases List.mem_cons.1 hp with rfl | hp
    · rw [hef, he0f]
    · have : f < p.1 := by
        apply hfrest
        exact List.mem_map_of_mem _ hp
      rw [hef, he0f]
      omega
  · intro e he hfe hke
    obtain ⟨p, hp, hep⟩ := mem_entriesOf.1 he
    have hef : e.freq = p.1 := hInv.freqEq p hp e hep
    rw [hb] at hp
    rcases List.mem_cons.1 hp with rfl | hp
    · rcases List.mem_cons.1 hep with rfl | hep
      · exact absurd rfl hke
      · apply hrec0head
        exact List.mem_map_of_mem _ hep
    · exfalso
      have : f < p.1 := by
        apply hfrest
        exact List.mem_map_of_mem _ hp
      rw [hef] at hfe
      rw [he0f] at hfe
      omega

theorem upd_self (τ : K → Nat) (k : K) (n : Nat) : upd τ k n k = n := by
  simp [upd]

theorem upd_other (τ : K → Nat) {k k' : K} (n : Nat) (h : k' ≠ k) :
    upd τ k n k' = τ k' := by
  simp [upd, h]

/-- An invariant state with no buckets satisfies the invariant for any
ghost data. -/
theorem Inv_ghost_nil {c : CacheImpl K V} {τ τ' : K → Nat} {t t' : Nat}
    (h : Inv c τ t) (hb : c.buckets = []) : Inv c τ' t' := by
  have hsz : c.size = 0 := by
    have := h.sizeEq
    rw [hb] at this
    simpa [entriesOf] using this
  refine ⟨?_, ?_, ?_, ?_, ?_, ?_, ?_, ?_, ?_⟩ <;>
    simp [hb, hsz, entriesOf, bucketKeys, keysOf]

/-- Running `Get` on a stored key: returns the stored value, bumps the key's
frequency, and touches nothing else. -/
theorem Get_hit_spec {g : GCache K V} (hInv : Inv g.c g.touch g.clock)
    {k : K} {e : cacheElement K V} (hfind : findEntry g.c k = some e) :
    ∃ c', Get g.c k = some (some e.value, c') ∧
      c'.capacity = g.c.capacity ∧ c'.size = g.c.size ∧
      Inv c' (upd g.touch k g.clock) (g.clock + 1) ∧
      findEntry c' k = some ⟨k, e.value, e.freq + 1⟩ ∧
      (∀ k'', k'' ≠ k → findEntry c' k'' = findEntry g.c k'') ∧
      removeAllKey (entriesOf c'.buckets) k = removeAllKey (entriesOf g.c.buckets) k := by
  have hupd : ∀ k', k' ≠ k → upd g.touch k g.clock k' = g.touch k' :=
    fun k' h => upd_other _ _ h
  have hmax : ∀ e' ∈ entriesOf g.c.buckets, e'.key ≠ k →
      g.touch e'.key < upd g.touch k g.clock k := by
    intro e' he' _
    rw [upd_self]
    exact hInv.touchLt e' he'
  have hkc : upd g.touch k g.clock k < g.clock + 1 := by
    rw [upd_self]
    omega
  obtain ⟨c', hcomp, hcap, hsize, hI, hf, hfr, hrm, -, -⟩ :=
    incrementFrequency_spec hInv hfind hupd hmax hkc (Nat.le_succ _)
  exact ⟨c', by simp only [Get, hfind, hcomp], hcap, hsize, hI, hf, hfr, hrm⟩

/-- Running `Put` on a stored key: overwrites the value, bumps the frequency,
makes the key most recently used at its new frequency, and leaves every
other entry — value, frequency, and relative order — untouched. -/
theorem Put_existing_spec {g : GCache K V} (hInv : Inv g.c g.touch g.clock)
    {k : K} {e : cacheElement K V} (hfind : findEntry g.c k = some e)
    (hcap : ¬ (g.c.capacity = 0)) (v : V) :
    ∃ c', Put g.c k v = some c' ∧
      c'.capacity = g.c.capacity ∧ c'.size = g.c.size ∧
      Inv c' (upd g.touch k g.clock) (g.clock + 1) ∧
      findEntry c' k = some ⟨k, v, e.freq + 1⟩ ∧
      (∀ k'', k'' ≠ k → findEntry c' k'' = findEntry g.c k'') ∧
      removeAllKey (entriesOf c'.buckets) k = removeAllKey (entriesOf g.c.buckets) k ∧
      (∃ bl, findFreq c'.buckets (e.freq + 1) = some bl ∧
        bl.getLast? = some ⟨k, v, e.freq + 1⟩) := by
  obtain ⟨bs₁, b₁, b₂, bs₂, hb, hkey⟩ := findEntry_locate hInv hfind
  have hE : entriesOf g.c.buckets
      = entriesOf bs₁ ++ (b₁ ++ e :: b₂) ++ entriesOf bs₂ := by
    rw [hb]
    simp
  have hndK : (keysOf (entriesOf bs₁) ++ (keysOf b₁ ++ k :: keysOf b₂)
      ++ keysOf (entriesOf bs₂)).Nodup := by
    have hnd := hInv.nodupKeys
    rw [hE] at hnd
    simpa [hkey] using hnd
  obtain ⟨hkE₁, hkb₁, hkb₂, hkE₂⟩ := nodup_parts hndK
  have hsv : setValueB g.c.buckets k v
      = bs₁ ++ (e.freq, b₁ ++ { e with value := v } :: b₂) :: bs₂ := by
    rw [hb]
    exact setValueB_decomp hkey hkb₁ hkE₁
  set cmid : CacheImpl K V := { g.c with buckets := setValueB g.c.buckets k v } with hcmid
  have hmidb : cmid.buckets = bs₁ ++ (e.freq, b₁ ++ { e with value := v } :: b₂) :: bs₂ := by
    rw [hcmid]
    exact hsv
  have hImid : Inv cmid g.touch g.clock :=
    Inv_congr_entry (e := e) (d := { e with value := v }) rfl rfl hb hmidb rfl rfl hInv
  have hEmid : entriesOf cmid.buckets
      = entriesOf bs₁ ++ (b₁ ++ (({ e with value := v } : cacheElement K V)
        :: (b₂ ++ entriesOf bs₂))) := by
    rw [hmidb]
    simp
  have hfmid : findEntry cmid k = some { e with value := v } := by
    show findInList _ _ = _
    rw [hEmid, findInList_append_not_mem hkE₁, findInList_append_not_mem hkb₁,
      findInList_cons_self
        (show ({ e with value := v } : cacheElement K V).key = k from hkey)]
  have hrmmid : removeAllKey (entriesOf cmid.buckets) k
      = removeAllKey (entriesOf g.c.buckets) k := by
    rw [hE, show entriesOf cmid.buckets
          = entriesOf bs₁ ++ (b₁ ++ ({ e with value := v } : cacheElement K V) :: b₂)
            ++ entriesOf bs₂ by rw [hmidb]; simp]
    simp [removeAllKey_append, removeAllKey_not_mem hkE₁, removeAllKey_not_mem hkb₁,
      removeAllKey_not_mem hkb₂, removeAllKey_not_mem hkE₂,
      removeAllKey_cons_self (e := ({ e with value := v } : cacheElement K V)) hkey,
      removeAllKey_cons_self (e := e) hkey]
  have hupd : ∀ k', k' ≠ k → upd g.touch k g.clock k' = g.touch k' :=
    fun k' h => upd_other _ _ h
  have hmax : ∀ e' ∈ entriesOf cmid.buckets, e'.key ≠ k →
      g.touch e'.key < upd g.touch k g.clock k := by
    intro e' he' _
    rw [upd_self]
    exact hImid.touchLt e' he'
  have hkc : upd g.touch k g.clock k < g.clock + 1 := by
    rw [upd_self]
    omega
  obtain ⟨c', hcomp, hcap', hsize, hI, hf, hfr, hrm, hmru, -⟩ :=
    incrementFrequency_spec hImid hfmid hupd hmax hkc (Nat.le_succ _)
  have hput : Put g.c k v = some c' := by
    simp only [Put, if_neg hcap, hfind]
    exact hcomp
  refine ⟨c', hput, hcap', hsize, hI, hf, ?_, ?_, hmru⟩
  · intro k'' hk
    rw [hfr k'' hk]
    exact frame_of_removeAllKey hrmmid k'' hk
  · rw [hrm, hrmmid]

/-- Running `Put` of a fresh key with room to spare. -/
theorem Put_fresh_spec {g : GCache K V} (hInv : Inv g.c g.touch g.clock)
    {k : K} (hfresh : findEntry g.c k = none) (hcap : ¬ (g.c.capacity = 0))
    (hroom : ¬ (g.c.size = g.c.capacity)) (v : V) :
    ∃ c', Put g.c k v = some c' ∧
      c'.capacity = g.c.capacity ∧ c'.size = g.c.size + 1 ∧
      Inv c' (upd g.touch k g.clock) (g.clock + 1) ∧
      findEntry c' k = some ⟨k, v, 1⟩ ∧
      (∀ k'', k'' ≠ k → findEntry c' k'' = findEntry g.c k'') ∧
      removeAllKey (entriesOf c'.buckets) k = entriesOf g.c.buckets := by
  have hupd : ∀ k', k' ≠ k → upd g.touch k g.clock k' = g.touch k' :=
    fun k' h => upd_other _ _ h
  have hmax : ∀ e' ∈ entriesOf g.c.buckets, e'.key ≠ k →
      g.touch e'.key < upd g.touch k g.clock k := by
    intro e' he' _
    rw [upd_self]
    exact hInv.touchLt e' he'
  have hkc : upd g.touch k g.clock k < g.clock + 1 := by
    rw [upd_self]
    omega
  have hsz : g.c.size < g.c.capacity := lt_of_le_of_ne hInv.sizeLe hroom
  obtain ⟨c', hcomp, hcap', hsize, hI, hf, hfr, hrm, -⟩ :=
    addNewEntry_spec hInv hfresh hupd hmax hkc (Nat.le_succ _) hsz
  refine ⟨c', ?_, hcap', hsize, hI, hf, hfr, hrm⟩
  simp only [Put, if_neg hcap, hfresh, if_neg hroom]
  exact hcomp

/-- Running `Put` of a fresh key at capacity: evicts the least recently used
entry of the lowest frequency first, then inserts the new entry. -/
theorem Put_full_spec {g : GCache K V} (hInv : Inv g.c g.touch g.clock)
    {k : K} (hfresh : findEntry g.c k = none) (hcap : 0 < g.c.capacity)
    (hfull : g.c.size = g.c.capacity) (v : V) :
    ∃ e0 c1 c', evictLFU g.c = some c1 ∧
      Put g.c k v = addNewEntry c1 k v ∧
      Put g.c k v = some c' ∧
      entriesOf g.c.buckets = e0 :: entriesOf c1.buckets ∧
      c'.capacity = g.c.capacity ∧ c'.size = g.c.size ∧
      Inv c' (upd g.touch k g.clock) (g.clock + 1) ∧
      findEntry c' k = some ⟨k, v, 1⟩ ∧
      e0 ∈ entriesOf g.c.buckets ∧
      (∀ e ∈ entriesOf g.c.buckets, e0.freq ≤ e.freq) ∧
      (∀ e ∈ entriesOf g.c.buckets, e.freq = e0.freq → e.key ≠ e0.key →
        g.touch e0.key < g.touch e.key) ∧
      List.Perm (keysOf (entriesOf c'.buckets)) (k :: keysOf (entriesOf c1.buckets)) ∧
      (∀ k', k' ≠ k → findEntry c' k' = findEntry g.c k' ∨
        (k' = e0.key ∧ findEntry c' k' = none)) := by
  have hbne : g.c.buckets ≠ [] := by
    intro hnil
    have h1 := hInv.sizeEq
    rw [hnil] at h1
    simp only [entriesOf_nil, List.length_nil] at h1
    omega
  obtain ⟨p, rest, hb0⟩ := List.exists_cons_of_ne_nil hbne
  obtain ⟨f, b⟩ := p
  have hbne2 : b ≠ [] := hInv.nonemp (f, b) (by rw [hb0]; simp)
  obtain ⟨e0, b', hbe⟩ := List.exists_cons_of_ne_nil hbne2
  subst hbe
  obtain ⟨c1, hev, hcap1, hsize1, hsz1, hI1, hEeq, hnone0, hfr1, hminf, hlru⟩ :=
    evictLFU_spec hInv hb0
  have hfresh1 : findEntry c1 k = none := by
    by_cases hk0 : k = e0.key
    · rw [hk0]
      exact hnone0
    · rw [hfr1 k hk0]
      exact hfresh
  have hupd : ∀ k', k' ≠ k → upd g.touch k g.clock k' = g.touch k' :=
    fun k' h => upd_other _ _ h
  have hmax : ∀ e' ∈ entriesOf c1.buckets, e'.key ≠ k →
      g.touch e'.key < upd g.touch k g.clock k := by
    intro e' he' _
    rw [upd_self]
    apply hInv.touchLt e'
    rw [hEeq]
    exact List.mem_cons_of_mem _ he'
  have hkc : upd g.touch k g.clock k < g.clock + 1 := by
    rw [upd_self]
    omega
  have hsz : c1.size < c1.capacity := by
    rw [hsize1, hcap1]
    omega
  obtain ⟨c', hcomp, hcap', hsize', hI, hf, hfr, hrm, hperm⟩ :=
    addNewEntry_spec hI1 hfresh1 hupd hmax hkc (Nat.le_succ _) hsz
  have hc0 : ¬ (g.c.capacity = 0) := by omega
  have hput : Put g.c k v = addNewEntry c1 k v := by
    simp only [Put, hc0, if_false, hfresh, hfull, eq_self_iff_true, if_true, hev]
  refine ⟨e0, c1, c', hev, hput, by rw [hput]; exact hcomp, hEeq,
    by rw [hcap', hcap1], by rw [hsize', hsize1]; omega, hI, hf,
    by rw [hEeq]; simp, hminf, hlru, ?_, ?_⟩
  · have := hperm.map (fun e => e.key)
    simpa [keysOf] using this
  · intro k' hk'
    by_cases hk0 : k' = e0.key
    · refine Or.inr ⟨hk0, ?_⟩
      rw [hfr k' hk', hk0]
      exact hnone0
    · refine Or.inl ?_
      rw [hfr k' hk', hfr1 k' hk0]

/-- Every public operation from an invariant state succeeds (no panic)
and preserves the invariant; the capacity never changes. -/
theorem stepG_spec {g : GCache K V} (hInv : Inv g.c g.touch g.clock) (op : Op K V) :
    ∃ g', stepG g op = some g' ∧ Inv g'.c g'.touch g'.clock ∧
      g'.c.capacity = g.c.capacity := by
  cases op with
  | get k =>
    rcases hfind : findEntry g.c k with _ | e
    · refine ⟨⟨g.c, g.touch, g.clock + 1⟩, ?_, ?_, rfl⟩
      · simp only [stepG, Get, hfind]
      · exact Inv_mono_clock hInv (Nat.le_succ _)
    · obtain ⟨c', hget, hcap, -, hI, -, -, -⟩ := Get_hit_spec hInv hfind
      refine ⟨⟨c', upd g.touch k g.clock, g.clock + 1⟩, ?_, hI, hcap⟩
      simp only [stepG, hget]
  | put k v =>
    by_cases hcap : g.c.capacity = 0
    · refine ⟨⟨g.c, upd g.touch k g.clock, g.clock + 1⟩, ?_, ?_, rfl⟩
      · simp only [stepG, Put, hcap, if_true]
      · have hz : g.c.size = 0 := by
          have := hInv.sizeLe
          omega
        exact Inv_ghost_nil hInv (Inv_buckets_nil hInv hz)
    · rcases hfind : findEntry g.c k with _ | e
      · by_cases hfull : g.c.size = g.c.capacity
        · obtain ⟨e0, c1, c', -, -, hput, -, hcap', -, hI, -, -, -, -, -⟩ :=
            Put_full_spec hInv hfind (by omega) hfull v
          exact ⟨⟨c', upd g.touch k g.clock, g.clock + 1⟩,
            by simp only [stepG, hput], hI, hcap'⟩
        · obtain ⟨c', hput, hcap', -, hI, -, -, -⟩ :=
            Put_fresh_spec hInv hfind hcap hfull v
          exact ⟨⟨c', upd g.touch k g.clock, g.clock + 1⟩,
            by simp only [stepG, hput], hI, hcap'⟩
      · obtain ⟨c', hput, hcap', -, hI, -, -, -, -⟩ :=
          Put_existing_spec hInv hfind hcap v
        exact ⟨⟨c', upd g.touch k g.clock, g.clock + 1⟩,
          by simp only [stepG, hput], hI, hcap'⟩

theorem runOps_Inv {ops : List (Op K V)} :
    ∀ {g g' : GCache K V}, Inv g.c g.touch g.clock → runOps g ops = some g' →
      Inv g'.c g'.touch g'.clock ∧ g'.c.capacity = g.c.capacity := by
  induction ops with
  | nil =>
    intro g g' h hr
    simp only [runOps, Option.some.injEq] at hr
    subst hr
    exact ⟨h, rfl⟩
  | cons op ops ih =>
    intro g g' h hr
    obtain ⟨g1, hs, hI1, hc1⟩ := stepG_spec h op
    simp only [runOps, hs] at hr
    obtain ⟨hI', hc'⟩ := ih hI1 hr
    exact ⟨hI', hc'.trans hc1⟩

/-- Every reachable state satisfies the master invariant. -/
theorem Reachable_Inv {g : GCache K V} (hr : Reachable g) :
    Inv g.c g.touch g.clock := by
  obtain ⟨cap, ops, hrun⟩ := hr
  exact (runOps_Inv Inv_empty hrun).1

/-! ### Order of the `All` iteration -/

@[simp]
theorem allEntriesDesc_nil : allEntriesDesc ([] : List (Nat × List (cacheElement K V))) = [] := rfl

@[simp]
theorem allEntriesDesc_cons (p : Nat × List (cacheElement K V)) (bs) :
    allEntriesDesc (p :: bs) = p.2.reverse ++ allEntriesDesc bs := by
  cases p
  rfl

theorem allEntriesDesc_append (bs₁ bs₂ : List (Nat × List (cacheElement K V))) :
    allEntriesDesc (bs₁ ++ bs₂) = allEntriesDesc bs₁ ++ allEntriesDesc bs₂ := by
  induction bs₁ with
  | nil => rfl
  | cons p bs ih => simp [ih]

/-- The `All` iteration enumerates exactly the stored entries. -/
theorem allEntriesDesc_perm (bs : List (Nat × List (cacheElement K V))) :
    List.Perm (allEntriesDesc bs.reverse) (entriesOf bs) := by
  induction bs with
  | nil => simp
  | cons p bs ih =>
    cases p with | mk f b =>
    rw [List.reverse_cons, allEntriesDesc_append]
    simp only [allEntriesDesc_cons, allEntriesDesc_nil, List.append_nil, entriesOf_cons]
    exact List.Perm.trans (List.Perm.append ih (List.reverse_perm b)) List.perm_append_comm

/-- The `All` iteration is sorted: strictly descending frequency across
buckets, strictly descending recency inside a bucket. -/
theorem allEntriesDesc_sorted {bs : List (Nat × List (cacheElement K V))} {τ : K → Nat}
    (hsorted : List.Pairwise (· < ·) (bucketKeys bs))
    (hfreq : ∀ p ∈ bs, ∀ e ∈ p.2, e.freq = p.1)
    (hrec : ∀ p ∈ bs, List.Pairwise (· < ·) (p.2.map (fun e => τ e.key))) :
    List.Pairwise (fun a b => b.freq < a.freq ∨ (b.freq = a.freq ∧ τ b.key < τ a.key))
      (allEntriesDesc bs.reverse) := by
  induction bs with
  | nil => simp
  | cons p bs ih =>
    cases p with | mk f b =>
    rw [List.reverse_cons, allEntriesDesc_append]
    rw [bucketKeys_cons, List.pairwise_cons] at hsorted
    obtain ⟨hflt, hPW⟩ := hsorted
    rw [List.pairwise_append]
    refine ⟨ih hPW (fun q hq => hfreq q (List.mem_cons_of_mem _ hq))
        (fun q hq => hrec q (List.mem_cons_of_mem _ hq)), ?_, ?_⟩
    · -- within the head (lowest-frequency) bucket, reversed
      simp only [allEntriesDesc_cons, allEntriesDesc_nil, List.append_nil]
      have hb : List.Pairwise (fun a b => τ a.key < τ b.key) b := by
        have := hrec (f, b) (List.mem_cons_self _ _)
        rwa [List.pairwise_map] at this
      have hbrev : List.Pairwise (fun a b => τ b.key < τ a.key) b.reverse := by
        rw [List.pairwise_reverse]
        exact hb
      refine hbrev.imp_of_mem ?_
      intro a c ha hc hlt
      have hfa : a.freq = f := hfreq (f, b) (List.mem_cons_self _ _) a (List.mem_reverse.1 ha)
      have hfc : c.freq = f := hfreq (f, b) (List.mem_cons_self _ _) c (List.mem_reverse.1 hc)
      exact Or.inr ⟨by rw [hfa, hfc], hlt⟩
    · -- higher-frequency entries all precede the head bucket's entries
      intro a ha c hc
      simp only [allEntriesDesc_cons, allEntriesDesc_nil, List.append_nil] at hc
      have hamem : a ∈ entriesOf bs := (allEntriesDesc_perm bs).mem_iff.1 ha
      obtain ⟨q, hq, haq⟩ := mem_entriesOf.1 hamem
      have hfa : a.freq = q.1 := hfreq q (List.mem_cons_of_mem _ hq) a haq
      have hfc : c.freq = f := hfreq (f, b) (List.mem_cons_self _ _) c (List.mem_reverse.1 hc)
      have hlt : f < q.1 := hflt q.1 (List.mem_map_of_mem _ hq)
      left
      omega

/-- A zero-capacity cache never changes: every operation succeeds and
leaves the empty state in place. -/
theorem runOps_zero_cap (ops : List (Op K V)) :
    ∀ {g : GCache K V}, g.c = ⟨0, 0, []⟩ →
      ∃ g', runOps g ops = some g' ∧ g'.c = ⟨0, 0, []⟩ := by
  induction ops with
  | nil => exact fun h => ⟨_, rfl, h⟩
  | cons op ops ih =>
    intro g h
    have hstep : ∃ g1, stepG g op = some g1 ∧ g1.c = ⟨0, 0, []⟩ := by
      cases op with
      | get k =>
        have hf : findEntry g.c k = none := by
          rw [h]
          rfl
        exact ⟨⟨g.c, g.touch, g.clock + 1⟩, by simp only [stepG, Get, hf], h⟩
      | put k v =>
        have hc : g.c.capacity = 0 := by rw [h]
        exact ⟨⟨g.c, upd g.touch k g.clock, g.clock + 1⟩,
          by simp only [stepG, Put, hc, if_true], h⟩
    obtain ⟨g1, hs, h1⟩ := hstep
    obtain ⟨g', hrn, h'⟩ := ih h1
    refine ⟨g', ?_, h'⟩
    simp only [runOps, hs]
    exact hrn

/-! ### The claims -/

/-- C1: for every reachable cache state, an eviction triggered by `Put`
of a new key at capacity removes the entry with the globally minimum
frequency, and among entries tied at that minimum it removes the least
recently touched one (ghost `touch` records the last `Get`/`Put` stamp).
The evicted entry `e0` is the head of the flattened entry sequence and
`Put` proceeds by `evictLFU` followed by `addNewEntry`. -/
theorem claim_eviction_lfu_lru (g : GCache K V) (hr : Reachable g) (k : K) (v : V)
    (hfresh : findEntry g.c k = none) (hfull : Size g.c = Capacity g.c)
    (hpos : 0 < Capacity g.c) :
    ∃ e0 c1, evictLFU g.c = some c1 ∧
      Put g.c k v = addNewEntry c1 k v ∧
      entriesOf g.c.buckets = e0 :: entriesOf c1.buckets ∧
      (∀ e ∈ entriesOf g.c.buckets, e0.freq ≤ e.freq) ∧
      (∀ e ∈ entriesOf g.c.buckets, e.freq = e0.freq → e.key ≠ e0.key →
        g.touch e0.key < g.touch e.key) := by
  have hInv := Reachable_Inv hr
  obtain ⟨e0, c1, c', hev, hput1, -, hE, -, -, -, -, -, hmin, hlru, -, -⟩ :=
    Put_full_spec hInv hfresh hpos hfull v
  exact ⟨e0, c1, hev, hput1, hE, hmin, hlru⟩

/-- C2: `size ≤ capacity` holds in every reachable state, and a `Put` of
a fresh key at capacity (capacity ≥ 1) removes exactly one existing
entry and inserts the new one, leaving `size` equal to `capacity`. -/
theorem claim_capacity_bound (g : GCache K V) (hr : Reachable g) :
    Size g.c ≤ Capacity g.c ∧
    (∀ (k : K) (v : V), findEntry g.c k = none → Size g.c = Capacity g.c →
      0 < Capacity g.c →
      ∃ c' e0 rest, Put g.c k v = some c' ∧ Size c' = Capacity g.c ∧
        entriesOf g.c.buckets = e0 :: rest ∧
        List.Perm (keysOf (entriesOf c'.buckets)) (k :: keysOf rest)) := by
  have hInv := Reachable_Inv hr
  refine ⟨hInv.sizeLe, ?_⟩
  intro k v hfresh hfull hpos
  obtain ⟨e0, c1, c', -, -, hput, hE, hcap', hsize', -, -, -, -, -, hperm, -⟩ :=
    Put_full_spec hInv hfresh hpos hfull v
  refine ⟨c', e0, entriesOf c1.buckets, hput, ?_, hE, hperm⟩
  show c'.size = g.c.capacity
  rw [hsize']
  exact hfull

/-- C3: in every reachable state the bucket list is strictly ascending
in frequency (hence one bucket per frequency value in use, which in the
fused representation of the `frequencies` map means the map holds a
value iff its non-empty bucket is linked), every bucket is non-empty,
and every entry's `freq` field equals its bucket's frequency value. -/
theorem claim_bucket_invariants (g : GCache K V) (hr : Reachable g) :
    List.Pairwise (· < ·) (bucketKeys g.c.buckets) ∧
    (∀ p ∈ g.c.buckets, p.2 ≠ []) ∧
    (∀ p ∈ g.c.buckets, ∀ e ∈ p.2, e.freq = p.1) :=
  ⟨(Reachable_Inv hr).sorted, (Reachable_Inv hr).nonemp, (Reachable_Inv hr).freqEq⟩

/-- C4: invoking `evictLFU` on a reachable cache holding zero entries
panics (modelled as `none`) rather than silently no-opping, while the
public `Put` path never panics from a reachable state — the condition is
unreachable through `Put`. -/
theorem claim_evict_empty_panics (g : GCache K V) (hr : Reachable g)
    (hzero : Size g.c = 0) :
    evictLFU g.c = none ∧ (∀ (k : K) (v : V), Put g.c k v ≠ none) := by
  have hInv := Reachable_Inv hr
  have hnil := Inv_buckets_nil hInv hzero
  constructor
  · simp only [evictLFU, hnil]
  · intro k v hnone
    obtain ⟨g', hs, -, -⟩ := stepG_spec hInv (Op.put k v)
    simp only [stepG, hnone] at hs
    exact Option.noConfusion hs

theorem cap_ne_zero_of_found {g : GCache K V} (hInv : Inv g.c g.touch g.clock)
    {k : K} {e : cacheElement K V} (hfind : findEntry g.c k = some e) :
    ¬ (g.c.capacity = 0) := by
  intro h0
  have hmem := (findInList_some hfind).1
  have hlen : 0 < (entriesOf g.c.buckets).length :=
    List.length_pos.2 (List.ne_nil_of_mem hmem)
  have h1 := hInv.sizeEq
  have h2 := hInv.sizeLe
  omega

/-- C5: `GetKeyFrequency` reports each stored key's frequency; a `Get`
or `Put` on a stored key raises exactly that key's frequency by one and
no other key's; across any single public operation no stored key's
frequency ever decreases, and a key not targeted by the operation either
keeps its frequency or disappears (eviction). -/
theorem claim_frequency_monotone (g : GCache K V) (hr : Reachable g) :
    (∀ (k : K) (e : cacheElement K V), findEntry g.c k = some e →
      GetKeyFrequency g.c k = some e.freq ∧
      (∃ (r : V) (c' : CacheImpl K V), Get g.c k = some (some r, c') ∧
        GetKeyFrequency c' k = some (e.freq + 1) ∧
        ∀ k', k' ≠ k → GetKeyFrequency c' k' = GetKeyFrequency g.c k') ∧
      (∀ v : V, ∃ c', Put g.c k v = some c' ∧
        GetKeyFrequency c' k = some (e.freq + 1) ∧
        ∀ k', k' ≠ k → GetKeyFrequency c' k' = GetKeyFrequency g.c k')) ∧
    (∀ (op : Op K V) (g' : GCache K V), stepG g op = some g' →
      (∀ (k : K) (f f' : Nat), GetKeyFrequency g.c k = some f →
        GetKeyFrequency g'.c k = some f' → f ≤ f') ∧
      (∀ k', k' ≠ opKey op →
        GetKeyFrequency g'.c k' = GetKeyFrequency g.c k' ∨
        GetKeyFrequency g'.c k' = none)) := by
  have hInv := Reachable_Inv hr
  constructor
  · intro k e hfind
    refine ⟨by simp only [GetKeyFrequency, hfind, Option.map_some'], ?_, ?_⟩
    · obtain ⟨c', hget, -, -, -, hf, hfr, -⟩ := Get_hit_spec hInv hfind
      refine ⟨e.value, c', hget, by simp only [GetKeyFrequency, hf, Option.map_some'], ?_⟩
      intro k' hk'
      simp only [GetKeyFrequency, hfr k' hk']
    · intro v
      obtain ⟨c', hput, -, -, -, hf, hfr, -, -⟩ :=
        Put_existing_spec hInv hfind (cap_ne_zero_of_found hInv hfind) v
      refine ⟨c', hput, by simp only [GetKeyFrequency, hf, Option.map_some'], ?_⟩
      intro k' hk'
      simp only [GetKeyFrequency, hfr k' hk']
  · intro op g' hstep
    cases op with
    | get k =>
      rcases hfind : findEntry g.c k with _ | e
      · have hg' : g'.c = g.c := by
          simp only [stepG, Get, hfind, Option.some.injEq] at hstep
          rw [← hstep]
        rw [hg']
        exact ⟨fun k f f' h1 h2 => by rw [h1] at h2; injection h2 with hh; omega,
          fun k' _ => Or.inl rfl⟩
      · obtain ⟨c', hget, -, -, -, hf, hfr, -⟩ := Get_hit_spec hInv hfind
        have hg' : g'.c = c' := by
          simp only [stepG, hget, Option.some.injEq] at hstep
          rw [← hstep]
        rw [hg']
        constructor
        · intro k0 f f' h1 h2
          by_cases hk0 : k0 = k
          · subst hk0
            simp only [GetKeyFrequency, hfind, Option.map_some', Option.some.injEq] at h1
            simp only [GetKeyFrequency, hf, Option.map_some', Option.some.injEq] at h2
            omega
          · rw [show GetKeyFrequency c' k0 = GetKeyFrequency g.c k0 by
                simp only [GetKeyFrequency, hfr k0 hk0]] at h2
            rw [h1] at h2
            injection h2 with hh
            omega
        · intro k' hk'
          exact Or.inl (by simp only [GetKeyFrequency, hfr k' hk'])
    | put k v =>
      by_cases hcap : g.c.capacity = 0
      · have hput : Put g.c k v = some g.c := by
          simp only [Put, hcap, if_true]
        have hg' : g'.c = g.c := by
          simp only [stepG, hput, Option.some.injEq] at hstep
          rw [← hstep]
        rw [hg']
        exact ⟨fun k f f' h1 h2 => by rw [h1] at h2; injection h2 with hh; omega,
          fun k' _ => Or.inl rfl⟩
      · rcases hfind : findEntry g.c k with _ | e
        · by_cases hfull : g.c.size = g.c.capacity
          · obtain ⟨e0, c1, c', -, -, hput, -, -, -, -, hf, -, -, -, -, hframe⟩ :=
              Put_full_spec hInv hfind (by omega) hfull v
            have hg' : g'.c = c' := by
              simp only [stepG, hput, Option.some.injEq] at hstep
              rw [← hstep]
            rw [hg']
            constructor
            · intro k0 f f' h1 h2
              by_cases hk0 : k0 = k
              · subst hk0
                simp only [GetKeyFrequency, hfind] at h1
                exact Option.noConfusion h1
              · rcases hframe k0 hk0 with hfr | ⟨-, hnone⟩
                · rw [show GetKeyFrequency c' k0 = GetKeyFrequency g.c k0 by
                      simp only [GetKeyFrequency, hfr]] at h2
                  rw [h1] at h2
                  injection h2 with hh
                  omega
                · simp only [GetKeyFrequency, hnone] at h2
                  exact Option.noConfusion h2
            · intro k' hk'
              rcases hframe k' hk' with hfr | ⟨-, hnone⟩
              · exact Or.inl (by simp only [GetKeyFrequency, hfr])
              · exact Or.inr (by simp only [GetKeyFrequency, hnone, Option.map_none'])
          · obtain ⟨c', hput, -, -, -, hf, hfr, -⟩ :=
              Put_fresh_spec hInv hfind hcap hfull v
            have hg' : g'.c = c' := by
              simp only [stepG, hput, Option.some.injEq] at hstep
              rw [← hstep]
            rw [hg']
            constructor
            · intro k0 f f' h1 h2
              by_cases hk0 : k0 = k
              · subst hk0
                simp only [GetKeyFrequency, hfind] at h1
                exact Option.noConfusion h1
              · rw [show GetKeyFrequency c' k0 = GetKeyFrequency g.c k0 by
                    simp only [GetKeyFrequency, hfr k0 hk0]] at h2
                rw [h1] at h2
                injection h2 with hh
                omega
            · intro k' hk'
              exact Or.inl (by simp only [GetKeyFrequency, hfr k' hk'])
        · obtain ⟨c', hput, -, -, -, hf, hfr, -, -⟩ :=
            Put_existing_spec hInv hfind hcap v
          have hg' : g'.c = c' := by
            simp only [stepG, hput, Option.some.injEq] at hstep
            rw [← hstep]
          rw [hg']
          constructor
          · intro k0 f f' h1 h2
            by_cases hk0 : k0 = k
            · subst hk0
              simp only [GetKeyFrequency, hfind, Option.map_some', Option.some.injEq] at h1
              simp only [GetKeyFrequency, hf, Option.map_some', Option.some.injEq] at h2
              omega
            · rw [show GetKeyFrequency c' k0 = GetKeyFrequency g.c k0 by
                  simp only [GetKeyFrequency, hfr k0 hk0]] at h2
              rw [h1] at h2
              injection h2 with hh
              omega
          · intro k' hk'
            exact Or.inl (by simp only [GetKeyFrequency, hfr k' hk'])

/-- C6: `All` yields exactly the stored (key, value) pairs, ordered by
strictly descending frequency and, within a frequency, most recently
touched first.  In this embedding `All` is a pure function of the state,
so consuming it (fully or in part) cannot change the cache and
re-invoking it restarts from the beginning. -/
theorem claim_all_order (g : GCache K V) (hr : Reachable g) :
    ∃ L : List (cacheElement K V),
      All g.c = L.map (fun e => (e.key, e.value)) ∧
      List.Perm L (entriesOf g.c.buckets) ∧
      List.Pairwise (fun a b => b.freq < a.freq ∨
        (b.freq = a.freq ∧ g.touch b.key < g.touch a.key)) L := by
  have hInv := Reachable_Inv hr
  exact ⟨allEntriesDesc g.c.buckets.reverse, rfl,
    allEntriesDesc_perm g.c.buckets,
    allEntriesDesc_sorted hInv.sorted hInv.freqEq hInv.recency⟩

/-- C7: on a cache with positive capacity, `Put k v` immediately
followed by `Get k` returns `v`: the key just put cannot be evicted by
that same `Put`. -/
theorem claim_put_get_roundtrip (g : GCache K V) (hr : Reachable g)
    (hpos : 0 < Capacity g.c) (k : K) (v : V) :
    ∃ c1 c2, Put g.c k v = some c1 ∧ Get c1 k = some (some v, c2) := by
  have hInv := Reachable_Inv hr
  have hcap : ¬ (g.c.capacity = 0) := by
    have : (0 : Nat) < g.c.capacity := hpos
    omega
  rcases hfind : findEntry g.c k with _ | e
  · by_cases hfull : g.c.size = g.c.capacity
    · obtain ⟨e0, c1, c', -, -, hput, -, -, -, hI, hf, -, -, -, -, -⟩ :=
        Put_full_spec hInv hfind (by omega) hfull v
      obtain ⟨c2, hget, -, -, -, -, -, -⟩ :=
        Get_hit_spec (g := ⟨c', upd g.touch k g.clock, g.clock + 1⟩) hI hf
      exact ⟨c', c2, hput, hget⟩
    · obtain ⟨c1, hput, -, -, hI, hf, -, -⟩ :=
        Put_fresh_spec hInv hfind hcap hfull v
      obtain ⟨c2, hget, -, -, -, -, -, -⟩ :=
        Get_hit_spec (g := ⟨c1, upd g.touch k g.clock, g.clock + 1⟩) hI hf
      exact ⟨c1, c2, hput, hget⟩
  · obtain ⟨c1, hput, -, -, hI, hf, -, -, -⟩ :=
      Put_existing_spec hInv hfind hcap v
    obtain ⟨c2, hget, -, -, -, -, -, -⟩ :=
      Get_hit_spec (g := ⟨c1, upd g.touch k g.clock, g.clock + 1⟩) hI hf
    exact ⟨c1, c2, hput, hget⟩

/-- C8: `Get` and `GetKeyFrequency` on an absent key — never inserted or
already evicted — return the not-found result (`ErrKeyNotFound`, the
inner `none`) and leave the state literally unchanged. -/
theorem claim_not_found_contract (c : CacheImpl K V) (k : K)
    (hmiss : findEntry c k = none) :
    Get c k = some (none, c) ∧ GetKeyFrequency c k = none := by
  constructor
  · simp only [Get, hmiss]
  · simp only [GetKeyFrequency, hmiss, Option.map_none']

/-- C9: a negative capacity panics at construction; a missing capacity
argument defaults to 5; a zero-capacity cache accepts every operation,
`Put` is a complete no-op, `Size` stays 0 for every operation sequence,
and `Get` always reports not-found. -/
theorem claim_zero_capacity :
    (∀ c : Int, c < 0 → New K V (some c) = none) ∧
    (∃ c0 : CacheImpl K V, New K V none = some c0 ∧ Capacity c0 = 5) ∧
    (∀ c : Int, 0 ≤ c → New K V (some c) = some ⟨c.toNat, 0, []⟩) ∧
    (∀ ops : List (Op K V), ∃ g', runOps (init K V 0) ops = some g' ∧
      Size g'.c = 0 ∧
      (∀ k : K, Get g'.c k = some (none, g'.c)) ∧
      (∀ (k : K) (v : V), Put g'.c k v = some g'.c)) := by
  refine ⟨?_, ⟨⟨DefaultCapacity, 0, []⟩, rfl, rfl⟩, ?_, ?_⟩
  · intro c hc
    simp only [New, if_pos hc]
  · intro c hc
    simp only [New, if_neg (not_lt.2 hc)]
  · intro ops
    obtain ⟨g', hrn, hg'⟩ := runOps_zero_cap ops (g := init K V 0) rfl
    refine ⟨g', hrn, by rw [hg']; rfl, ?_, ?_⟩
    · intro k
      have hf : findEntry g'.c k = none := by
        rw [hg']
        rfl
      simp only [Get, hf]
    · intro k v
      have hc : g'.c.capacity = 0 := by rw [hg']
      simp only [Put, hc, if_true]

/-- C10: `Put` on a key already present only modifies that key's entry —
new value, frequency one higher, most recently used at its new frequency
— while `Size`, every other key's entry, and the relative order of all
other entries are unchanged. -/
theorem claim_put_existing_frame (g : GCache K V) (hr : Reachable g)
    (k : K) (v : V) (e : cacheElement K V) (hfind : findEntry g.c k = some e) :
    ∃ c', Put g.c k v = some c' ∧
      Size c' = Size g.c ∧
      findEntry c' k = some ⟨k, v, e.freq + 1⟩ ∧
      (∀ k', k' ≠ k → findEntry c' k' = findEntry g.c k') ∧
      removeAllKey (entriesOf c'.buckets) k = removeAllKey (entriesOf g.c.buckets) k ∧
      (∃ bl, findFreq c'.buckets (e.freq + 1) = some bl ∧
        bl.getLast? = some ⟨k, v, e.freq + 1⟩) := by
  have hInv := Reachable_Inv hr
  obtain ⟨c', hput, -, hsize, -, hf, hfr, hrm, hmru⟩ :=
    Put_existing_spec hInv hfind (cap_ne_zero_of_found hInv hfind) v
  exact ⟨c', hput, hsize, hf, hfr, hrm, hmru⟩

/-! ### Concrete witness states -/

/-- A short operation history on a capacity-2 cache: after it the cache
is full (keys 1 and 2; key 1 has frequency 2, key 2 frequency 1). -/
def opsW : List (Op Nat Nat) := [Op.put 1 10, Op.put 2 20, Op.get 1]

/-- The state reached by `opsW`. -/
def gW : GCache Nat Nat :=
  match runOps (init Nat Nat 2) opsW with
  | some g => g
  | none => init Nat Nat 0

/-- A freshly constructed capacity-2 cache (size 0). -/
def g0 : GCache Nat Nat := init Nat Nat 2

theorem claim_eviction_lfu_lru_witness :
    (Reachable gW ∧ findEntry gW.c 9 = none ∧ Size gW.c = Capacity gW.c ∧
      0 < Capacity gW.c) ∧
    (∃ e0 c1, evictLFU gW.c = some c1 ∧
      Put gW.c 9 99 = addNewEntry c1 9 99 ∧
      entriesOf gW.c.buckets = e0 :: entriesOf c1.buckets ∧
      (∀ e ∈ entriesOf gW.c.buckets, e0.freq ≤ e.freq) ∧
      (∀ e ∈ entriesOf gW.c.buckets, e.freq = e0.freq → e.key ≠ e0.key →
        gW.touch e0.key < gW.touch e.key)) :=
  ⟨⟨⟨2, opsW, by rfl⟩, by decide, by decide, by decide⟩,
    claim_eviction_lfu_lru gW ⟨2, opsW, by rfl⟩ 9 99 (by decide) (by decide) (by decide)⟩

theorem claim_capacity_bound_witness :
    Reachable gW ∧
    (Size gW.c ≤ Capacity gW.c ∧
      (∀ (k : Nat) (v : Nat), findEntry gW.c k = none → Size gW.c = Capacity gW.c →
        0 < Capacity gW.c →
        ∃ c' e0 rest, Put gW.c k v = some c' ∧ Size c' = Capacity gW.c ∧
          entriesOf gW.c.buckets = e0 :: rest ∧
          List.Perm (keysOf (entriesOf c'.buckets)) (k :: keysOf rest))) :=
  ⟨⟨2, opsW, by rfl⟩, claim_capacity_bound gW ⟨2, opsW, by rfl⟩⟩

theorem claim_bucket_invariants_witness :
    Reachable gW ∧
    (List.Pairwise (· < ·) (bucketKeys gW.c.buckets) ∧
      (∀ p ∈ gW.c.buckets, p.2 ≠ []) ∧
      (∀ p ∈ gW.c.buckets, ∀ e ∈ p.2, e.freq = p.1)) :=
  ⟨⟨2, opsW, by rfl⟩, claim_bucket_invariants gW ⟨2, opsW, by rfl⟩⟩

theorem claim_evict_empty_panics_witness :
    (Reachable g0 ∧ Size g0.c = 0) ∧
    (evictLFU g0.c = none ∧ (∀ (k : Nat) (v : Nat), Put g0.c k v ≠ none)) :=
  ⟨⟨⟨2, [], by rfl⟩, rfl⟩, claim_evict_empty_panics g0 ⟨2, [], by rfl⟩ rfl⟩

theorem claim_frequency_monotone_witness :
    Reachable gW ∧
    ((∀ (k : Nat) (e : cacheElement Nat Nat), findEntry gW.c k = some e →
      GetKeyFrequency gW.c k = some e.freq ∧
      (∃ (r : Nat) (c' : CacheImpl Nat Nat), Get gW.c k = some (some r, c') ∧
        GetKeyFrequency c' k = some (e.freq + 1) ∧
        ∀ k', k' ≠ k → GetKeyFrequency c' k' = GetKeyFrequency gW.c k') ∧
      (∀ v : Nat, ∃ c', Put gW.c k v = some c' ∧
        GetKeyFrequency c' k = some (e.freq + 1) ∧
        ∀ k', k' ≠ k → GetKeyFrequency c' k' = GetKeyFrequency gW.c k')) ∧
    (∀ (op : Op Nat Nat) (g' : GCache Nat Nat), stepG gW op = some g' →
      (∀ (k : Nat) (f f' : Nat), GetKeyFrequency gW.c k = some f →
        GetKeyFrequency g'.c k = some f' → f ≤ f') ∧
      (∀ k', k' ≠ opKey op →
        GetKeyFrequency g'.c k' = GetKeyFrequency gW.c k' ∨
        GetKeyFrequency g'.c k' = none))) :=
  ⟨⟨2, opsW, by rfl⟩, claim_frequency_monotone gW ⟨2, opsW, by rfl⟩⟩

theorem claim_all_order_witness :
    Reachable gW ∧
    (∃ L : List (cacheElement Nat Nat),
      All gW.c = L.map (fun e => (e.key, e.value)) ∧
      List.Perm L (entriesOf gW.c.buckets) ∧
      List.Pairwise (fun a b => b.freq < a.freq ∨
        (b.freq = a.freq ∧ gW.touch b.key < gW.touch a.key)) L) :=
  ⟨⟨2, opsW, by rfl⟩, claim_all_order gW ⟨2, opsW, by rfl⟩⟩

theorem claim_put_get_roundtrip_witness :
    (Reachable gW ∧ 0 < Capacity gW.c) ∧
    (∃ c1 c2, Put gW.c 7 70 = some c1 ∧ Get c1 7 = some (some 70, c2)) :=
  ⟨⟨⟨2, opsW, by rfl⟩, by decide⟩,
    claim_put_get_roundtrip gW ⟨2, opsW, by rfl⟩ (by decide) 7 70⟩

theorem claim_not_found_contract_witness :
    (findEntry (⟨5, 0, []⟩ : CacheImpl Nat Nat) 0 = none) ∧
    (Get (⟨5, 0, []⟩ : CacheImpl Nat Nat) 0 = some (none, (⟨5, 0, []⟩ : CacheImpl Nat Nat)) ∧
      GetKeyFrequency (⟨5, 0, []⟩ : CacheImpl Nat Nat) 0 = none) :=
  ⟨rfl, claim_not_found_contract (⟨5, 0, []⟩ : CacheImpl Nat Nat) 0 rfl⟩

theorem claim_put_existing_frame_witness :
    (Reachable gW ∧ findEntry gW.c 1 = some ⟨1, 10, 2⟩) ∧
    (∃ c', Put gW.c 1 11 = some c' ∧
      Size c' = Size gW.c ∧
      findEntry c' 1 = some ⟨1, 11, 3⟩ ∧
      (∀ k', k' ≠ 1 → findEntry c' k' = findEntry gW.c k') ∧
      removeAllKey (entriesOf c'.buckets) 1 = removeAllKey (entriesOf gW.c.buckets) 1 ∧
      (∃ bl, findFreq c'.buckets 3 = some bl ∧
        bl.getLast? = some ⟨1, 11, 3⟩)) :=
  ⟨⟨⟨2, opsW, by rfl⟩, by decide⟩,
    claim_put_existing_frame gW ⟨2, opsW, by rfl⟩ 1 11 ⟨1, 10, 2⟩ (by decide)⟩

theorem claim_zero_capacity_witness :
    (∀ c : Int, c < 0 → New Nat Nat (some c) = none) ∧
    (∃ c0 : CacheImpl Nat Nat, New Nat Nat none = some c0 ∧ Capacity c0 = 5) ∧
    (∀ c : Int, 0 ≤ c → New Nat Nat (some c) = some ⟨c.toNat, 0, []⟩) ∧
    (∀ ops : List (Op Nat Nat), ∃ g', runOps (init Nat Nat 0) ops = some g' ∧
      Size g'.c = 0 ∧
      (∀ k : Nat, Get g'.c k = some (none, g'.c)) ∧
      (∀ (k : Nat) (v : Nat), Put g'.c k v = some g'.c)) :=
  claim_zero_capacity

end LfuSpec
